import Mathlib

/-!
Verification of the pagerando registry of `android_bionic`:
the treap-based interval map in `linker/rando_map.cpp` and the
address sampler / POT index map in `linker/linker_pagerando.cpp`.

Pointers and `size_t` values are modelled as natural numbers; the
per-function metadata array is modelled by its `(count, pointer)` pair.
-/

namespace RandoMap

/-- One `RandoMapNode` from `rando_map.cpp` (content fields and the
balancing priority; the `left`/`right` links are the tree structure). -/
structure Node where
  div_start : Nat
  div_end : Nat
  undiv_start : Nat
  undiv_vaddr : Nat
  num_funcs : Nat
  funcs : Nat
  prio : Nat
deriving DecidableEq, Repr

/-- The pointer-linked tree of `RandoMapNode`s, as an inductive tree.
`nil` is the null pointer. -/
inductive MapTree where
  | nil : MapTree
  | node : Node → MapTree → MapTree → MapTree
deriving DecidableEq, Repr

namespace MapTree

/-- Number of nodes of a tree. -/
def size : MapTree → Nat
  | nil => 0
  | node _ l r => size l + size r + 1

/-- Priority of the root node (`0` for the null tree; only ever used
on non-null trees, mirroring `curr->left->prio` etc.). -/
def rootPrio : MapTree → Nat
  | nil => 0
  | node v _ _ => v.prio

/-- In-order list of the nodes of the tree. -/
def toList : MapTree → List Node
  | nil => []
  | node v l r => toList l ++ v :: toList r

/-- In-order list of the `div_start` fields. -/
def startsList (t : MapTree) : List Nat :=
  t.toList.map Node.div_start

/-- `rotate_left_son` from `rando_map.cpp`: pull the left child up.
Identity when there is no node or no left child (the code only calls it
when both exist). -/
def rotateLeftSon : MapTree → MapTree
  | node v (node w a b) r => node w a (node v b r)
  | t => t

/-- `rotate_right_son` from `rando_map.cpp`: pull the right child up. -/
def rotateRightSon : MapTree → MapTree
  | node v l (node u c e) => node u (node v l c) e
  | t => t

end MapTree

open MapTree

/-- `map_tree_insert_node` from `rando_map.cpp`.  Descend comparing the
new node's `div_start` with each visited interval; `none` models the
`__libc_fatal("overlapping rando map nodes")` path.  After the recursive
insertion, rotate the child up whenever its priority exceeds the
parent's. -/
def map_tree_insert_node (x : Node) : MapTree → Option MapTree
  | nil => some (node x nil nil)
  | node v l r =>
    if x.div_start < v.div_start then
      match map_tree_insert_node x l with
      | none => none
      | some l' =>
        if v.prio < l'.rootPrio then some (rotateLeftSon (node v l' r))
        else some (node v l' r)
    else if v.div_end ≤ x.div_start then
      match map_tree_insert_node x r with
      | none => none
      | some r' =>
        if v.prio < r'.rootPrio then some (rotateRightSon (node v l r'))
        else some (node v l r')
    else
      none

/-- `map_tree_delete_node` from `rando_map.cpp`.  Descend to the node
whose interval contains `d`; `none` models the
`__libc_fatal("trying to delete inexistent node")` path.  Once found,
zero its priority, splice it out directly if it has at most one child,
otherwise rotate its higher-priority child up and recurse into the
subtree the target was rotated down into.  Returns the detached node
(with its priority zeroed, as the code leaves it) and the new tree. -/
def map_tree_delete_node (d : Nat) : MapTree → Option (Node × MapTree)
  | nil => none
  | node v l r =>
    if d < v.div_start then
      (map_tree_delete_node d l).map fun p => (p.1, node v p.2 r)
    else if v.div_end ≤ d then
      (map_tree_delete_node d r).map fun p => (p.1, node v l p.2)
    else
      match l with
      | nil => some ({ v with prio := 0 }, r)
      | node w a b =>
        match r with
        | nil => some ({ v with prio := 0 }, node w a b)
        | node u c e =>
          if u.prio < w.prio then
            (map_tree_delete_node d (node { v with prio := 0 } b (node u c e))).map
              fun p => (p.1, node w a p.2)
          else
            (map_tree_delete_node d (node { v with prio := 0 } (node w a b) c)).map
              fun p => (p.1, node u p.2 e)
termination_by t => t.size
decreasing_by all_goals simp [MapTree.size]; omega

/-- Fuel-indexed transcription of `map_tree_insert_node`: `none` means
the fuel ran out before the recursion finished, `some none` is the fatal
overlap path, `some (some t)` is normal completion. -/
def insertFuel (fuel : Nat) (x : Node) (t : MapTree) : Option (Option MapTree) :=
  match fuel, t with
  | 0, _ => none
  | _ + 1, nil => some (some (node x nil nil))
  | fuel + 1, node v l r =>
    if x.div_start < v.div_start then
      match insertFuel fuel x l with
      | none => none
      | some none => some none
      | some (some l') =>
        some (some (if v.prio < l'.rootPrio then rotateLeftSon (node v l' r)
                    else node v l' r))
    else if v.div_end ≤ x.div_start then
      match insertFuel fuel x r with
      | none => none
      | some none => some none
      | some (some r') =>
        some (some (if v.prio < r'.rootPrio then rotateRightSon (node v l r')
                    else node v l r'))
    else
      some none

/-- Fuel-indexed transcription of `map_tree_delete_node`: `none` means
the fuel ran out, `some none` is the fatal path, `some (some p)` is
normal completion. -/
def deleteFuel (fuel d : Nat) (t : MapTree) : Option (Option (Node × MapTree)) :=
  match fuel, t with
  | 0, _ => none
  | _ + 1, nil => some none
  | fuel + 1, node v l r =>
    if d < v.div_start then
      (deleteFuel fuel d l).map (Option.map fun p => (p.1, node v p.2 r))
    else if v.div_end ≤ d then
      (deleteFuel fuel d r).map (Option.map fun p => (p.1, node v l p.2))
    else
      match l with
      | nil => some (some ({ v with prio := 0 }, r))
      | node w a b =>
        match r with
        | nil => some (some ({ v with prio := 0 }, node w a b))
        | node u c e =>
          if u.prio < w.prio then
            (deleteFuel fuel d (node { v with prio := 0 } b (node u c e))).map
              (Option.map fun p => (p.1, node w a p.2))
          else
            (deleteFuel fuel d (node { v with prio := 0 } (node w a b) c)).map
              (Option.map fun p => (p.1, node u p.2 e))

/-- The all-zero node: what `memset(node, 0, sizeof(RandoMapNode))` leaves
in a freed slot (and what a fresh zero-filled page provides). -/
def zeroNode : Node := ⟨0, 0, 0, 0, 0, 0, 0⟩

/-- The bump/free-list arena of `rando_map.cpp`: the free list, the
`current_page` bump pointer and limit (as slot counters within the
current page), and the number of pages mapped so far. -/
structure ArenaState where
  freeList : List Node
  next : Nat
  limit : Nat
  pages : Nat
deriving DecidableEq, Repr

/-- `alloc_map_page`: map one fresh zero-filled page and reset
`next`/`limit` to span it; `npp` is the number of node slots per page. -/
def alloc_map_page (npp : Nat) (a : ArenaState) : ArenaState :=
  { a with pages := a.pages + 1, next := 0, limit := npp - 1 }

/-- `alloc_node` from `rando_map.cpp`: pop the free list if non-empty;
otherwise map a fresh page when `next > limit`, then return the slot at
`next` and advance `next`. -/
def alloc_node (npp : Nat) (a : ArenaState) : Node × ArenaState :=
  match a.freeList with
  | n :: rest => (n, { a with freeList := rest })
  | [] =>
    let a1 := if a.limit < a.next then alloc_map_page npp a else a
    (zeroNode, { a1 with next := a1.next + 1 })

/-- The registry state: the tree hanging off `rando_map_header->root`
together with the arena globals. -/
structure RandoMapState where
  tree : MapTree
  arena : ArenaState
deriving DecidableEq, Repr

/-- `rando_map_add` from `rando_map.cpp`: allocate a node, then execute
the stray `current_page.next++;` on line 177, populate the node's fields
(`div_end = div_start + div_size`, links null), give it the externally
drawn priority `prio`, and insert it into the tree (`none` = fatal). -/
def rando_map_add (npp div_start div_size undiv_start undiv_vaddr
    num_funcs funcs prio : Nat) (st : RandoMapState) : Option RandoMapState :=
  let alloc := alloc_node npp st.arena
  let a2 := { alloc.2 with next := alloc.2.next + 1 }
  let x : Node := ⟨div_start, div_start + div_size, undiv_start, undiv_vaddr,
                   num_funcs, funcs, prio⟩
  match map_tree_insert_node x st.tree with
  | none => none
  | some t' => some ⟨t', a2⟩

/-- `rando_map_delete` from `rando_map.cpp`: detach the node whose
interval contains `d` (`none` = fatal), `memset` it to zero and push it
onto the free-list head (the threading through `right` is the list
structure). -/
def rando_map_delete (d : Nat) (st : RandoMapState) : Option RandoMapState :=
  match map_tree_delete_node d st.tree with
  | none => none
  | some (_, t') =>
    some ⟨t', { st.arena with freeList := zeroNode :: st.arena.freeList }⟩

/-- Modelled from the spec: the registry lookup ("querying any address in
`[A, A+len)`", §2/§8) is not in `src/`; per §4.2/§8 it descends by the
same start/end comparison as insert and delete and returns the node whose
interval contains the queried address. -/
def map_tree_lookup (d : Nat) : MapTree → Option Node
  | nil => none
  | node v l r =>
    if d < v.div_start then map_tree_lookup d l
    else if v.div_end ≤ d then map_tree_lookup d r
    else some v

/-- The max-heap invariant on `prio`: every node's priority is at least
its children's (a null child counts as priority `0`). -/
def IsHeap : MapTree → Prop
  | nil => True
  | node v l r => l.rootPrio ≤ v.prio ∧ r.rootPrio ≤ v.prio ∧ IsHeap l ∧ IsHeap r

instance IsHeap.instDec : (t : MapTree) → Decidable (IsHeap t)
  | nil => isTrue trivial
  | node v l r =>
    haveI := IsHeap.instDec l
    haveI := IsHeap.instDec r
    decidable_of_iff
      (l.rootPrio ≤ v.prio ∧ r.rootPrio ≤ v.prio ∧ IsHeap l ∧ IsHeap r) Iff.rfl

/-- The interval-search invariant of the tree: all intervals of the left
subtree lie below the node's `div_start`, all intervals of the right
subtree start at or above the node's `div_end`, and each interval is
well formed, everything within `[lo, hi]`. -/
def Bounded (lo hi : Nat) : MapTree → Prop
  | nil => True
  | node v l r =>
    lo ≤ v.div_start ∧ v.div_start ≤ v.div_end ∧ v.div_end ≤ hi ∧
    Bounded lo v.div_start l ∧ Bounded v.div_end hi r

instance Bounded.instDec : (lo hi : Nat) → (t : MapTree) → Decidable (Bounded lo hi t)
  | _, _, nil => isTrue trivial
  | lo, hi, node v l r =>
    haveI := Bounded.instDec lo v.div_start l
    haveI := Bounded.instDec v.div_end hi r
    decidable_of_iff
      (lo ≤ v.div_start ∧ v.div_start ≤ v.div_end ∧ v.div_end ≤ hi ∧
       Bounded lo v.div_start l ∧ Bounded v.div_end hi r) Iff.rfl

/-- Strictly ascending in-order `div_start` values. -/
def AscStarts (t : MapTree) : Prop :=
  List.Pairwise (· < ·) t.startsList

instance AscStarts.instDec (t : MapTree) : Decidable (AscStarts t) :=
  inferInstanceAs (Decidable (List.Pairwise _ _))

/-- All live intervals have positive length. -/
def PosLen (t : MapTree) : Prop :=
  ∀ v ∈ t.toList, v.div_start < v.div_end

instance PosLen.instDec (t : MapTree) : Decidable (PosLen t) :=
  inferInstanceAs (Decidable (∀ v ∈ t.toList, v.div_start < v.div_end))

/-- `v` contains the address `d`. -/
def contains (v : Node) (d : Nat) : Prop :=
  v.div_start ≤ d ∧ d < v.div_end

instance contains.instDec (v : Node) (d : Nat) : Decidable (contains v d) :=
  inferInstanceAs (Decidable (_ ∧ _))

/-- Architecture window constants from `linker_pagerando.cpp` (arm). -/
def RAND_ADDR_LOW_arm : Nat := 0xb0000000

/-- Architecture window constants from `linker_pagerando.cpp` (arm). -/
def RAND_ADDR_HIGH_arm : Nat := 0xb6000000

/-- Architecture window constants from `linker_pagerando.cpp` (aarch64). -/
def RAND_ADDR_LOW_aarch64 : Nat := 0x1000000000

/-- Architecture window constants from `linker_pagerando.cpp` (aarch64). -/
def RAND_ADDR_HIGH_aarch64 : Nat := 0x5000000000

/-- `ElfW(Addr) min = -range % range;` from `get_random_address`, with the
unary minus computed in `W`-bit unsigned wraparound arithmetic. -/
def addr_min (W range : Nat) : Nat :=
  ((2 ^ W - range % 2 ^ W) % 2 ^ W) % range

/-- The raw draws the rejection loop of `get_random_address` accepts:
full-width values `v` with `min ≤ v < 2^W`. -/
def acceptedDraws (W LOW HIGH : Nat) : Finset Nat :=
  Finset.Ico (addr_min W (HIGH - LOW)) (2 ^ W)

/-- The final mapping of `get_random_address`:
`random_start_address % range + RAND_ADDR_LOW`, applied to the accepted
raw draw `v`. -/
def get_random_address (LOW HIGH v : Nat) : Nat :=
  v % (HIGH - LOW) + LOW

/-- Modelled from the spec: `arc4random_uniform(upper_bound)` is bionic
libc code outside `src/`; per its documented contract it returns a
uniformly distributed random number strictly less than `upper_bound`.
This is its set of possible return values. -/
def arc4random_uniform_support (upper_bound : Nat) : Finset Nat :=
  Finset.range upper_bound

/-- `UINT32_MAX`. -/
def UINT32_MAX : Nat := 2 ^ 32 - 1

/-- The possible priorities assigned at node creation:
`node->prio = arc4random_uniform(UINT32_MAX);` (`rando_map.cpp`
line 187). -/
def rando_map_prio_support : Finset Nat :=
  arc4random_uniform_support UINT32_MAX

/-- Modelled from the spec: `kPOTIndexError` is declared in
`linker_pagerando.h`, which is not under `src/`; it is the distinguished
"index error" sentinel (`SIZE_MAX` on a 64-bit target). -/
def kPOTIndexError : Nat := 2 ^ 64 - 1

/-- The `find('\n')`/`substr` splitting loop of
`POTIndexMap::read_pot_map` applied to the file content: split at every
newline; the piece after the last newline is also a line, so content
ending in a newline yields a final empty line, and empty content yields
one empty line. -/
def split_lines : List Char → List (List Char)
  | [] => [[]]
  | c :: cs =>
    if c = '\n' then [] :: split_lines cs
    else
      match split_lines cs with
      | [] => [[c]]
      | l :: ls => (c :: l) :: ls

/-- The effect of the `pot_indices_[line] = index;` assignments followed
by `pot_indices_.find(soname)`: the index of the last line equal to
`soname` (later assignments overwrite earlier ones), `none` if no line
matches.  `k` is the index of the first line of the remaining list. -/
def last_index_from (soname : List Char) (k : Nat) : List (List Char) → Option Nat
  | [] => none
  | l :: ls =>
    match last_index_from soname (k + 1) ls with
    | some i => some i
    | none => if l = soname then some k else none

/-- `POTIndexMap::get_pot_index` combined with `read_pot_map`: `file` is
the result of reading the map file (`none` models `ReadFileToString`
failure), and the index map is the line list with later duplicates
overwriting earlier ones. -/
def get_pot_index (file : Option (List Char)) (soname : List Char) : Nat :=
  match file with
  | none => kPOTIndexError
  | some content =>
    match last_index_from soname 0 (split_lines content) with
    | none => kPOTIndexError
    | some i => i

/-! ### Basic structural lemmas -/

theorem rotateLeftSon_node (v w : Node) (a b r : MapTree) :
    rotateLeftSon (node v (node w a b) r) = node w a (node v b r) := rfl

theorem rotateRightSon_node (v u : Node) (l c e : MapTree) :
    rotateRightSon (node v l (node u c e)) = node u (node v l c) e := rfl

theorem toList_nil : toList nil = [] := rfl

theorem toList_node (v : Node) (l r : MapTree) :
    toList (node v l r) = toList l ++ v :: toList r := rfl

theorem startsList_node (v : Node) (l r : MapTree) :
    startsList (node v l r) = startsList l ++ v.div_start :: startsList r := by
  simp [startsList, toList]

theorem self_mem_toList (v : Node) (l r : MapTree) : v ∈ toList (node v l r) := by
  simp [toList]

theorem rootPrio_le_of_forall {t : MapTree} {c : Nat}
    (h : ∀ n ∈ toList t, n.prio ≤ c) : t.rootPrio ≤ c := by
  cases t with
  | nil => exact Nat.zero_le c
  | node v l r => exact h v (self_mem_toList v l r)

/-- In a heap, the root's priority bounds every node's priority. -/
theorem IsHeap.prio_le_root {t : MapTree} (h : IsHeap t) :
    ∀ n ∈ toList t, n.prio ≤ t.rootPrio := by
  induction t with
  | nil => intro n hn; simp [toList] at hn
  | node v l r ihl ihr =>
    obtain ⟨hl, hr, Hl, Hr⟩ := h
    intro n hn
    rw [toList_node] at hn
    rcases List.mem_append.mp hn with hnl | hnr
    · exact le_trans (ihl Hl n hnl) hl
    · rcases List.mem_cons.mp hnr with rfl | hnr
      · exact le_refl _
      · exact le_trans (ihr Hr n hnr) hr

/-- A successful insert returns a nonempty tree. -/
theorem insert_ne_nil {x : Node} {t t' : MapTree}
    (h : map_tree_insert_node x t = some t') : t' ≠ nil := by
  cases t with
  | nil =>
    simp [map_tree_insert_node] at h
    subst h; exact fun hc => MapTree.noConfusion hc
  | node v l r =>
    rw [map_tree_insert_node] at h
    split at h
    · split at h
      · cases h
      · rename_i l' hl'
        split at h <;> injection h with h <;> subst h
        · cases l' with
          | nil => exact fun hc => MapTree.noConfusion hc
          | node w a b =>
            rw [rotateLeftSon_node]; exact fun hc => MapTree.noConfusion hc
        · exact fun hc => MapTree.noConfusion hc
    · split at h
      · split at h
        · cases h
        · rename_i r' hr'
          split at h <;> injection h with h <;> subst h
          · cases r' with
            | nil => exact fun hc => MapTree.noConfusion hc
            | node u c e =>
              rw [rotateRightSon_node]; exact fun hc => MapTree.noConfusion hc
          · exact fun hc => MapTree.noConfusion hc
      · cases h

/-- A successful insert adds exactly the new node to the live set. -/
theorem insert_perm {x : Node} {t t' : MapTree}
    (h : map_tree_insert_node x t = some t') :
    (toList t').Perm (x :: toList t) := by
  induction t generalizing t' with
  | nil =>
    simp [map_tree_insert_node] at h
    subst h; simp [toList]
  | node v l r ihl ihr =>
    rw [map_tree_insert_node] at h
    split at h
    · split at h
      · cases h
      · rename_i l' hl'
        have hperm := ihl hl'
        split at h <;> injection h with h <;> subst h
        · cases l' with
          | nil => simp [toList, List.nil_perm] at hperm
          | node w a b =>
            rw [rotateLeftSon_node]
            have he : toList (node w a (node v b r))
                = toList (node w a b) ++ v :: toList r := by
              simp [toList_node]
            rw [he, toList_node]
            refine List.Perm.trans (hperm.append_right (v :: toList r)) ?_
            have h2 : (x :: toList l) ++ v :: toList r
                = x :: (toList l ++ v :: toList r) := by simp
            rw [h2, toList_node]
        · rw [toList_node, toList_node]
          exact List.Perm.trans (hperm.append_right (v :: toList r))
            (by simp)
    · split at h
      · split at h
        · cases h
        · rename_i r' hr'
          have hperm := ihr hr'
          split at h <;> injection h with h <;> subst h
          · cases r' with
            | nil => simp [toList, List.nil_perm] at hperm
            | node u c e =>
              rw [rotateRightSon_node]
              have he : toList (node u (node v l c) e)
                  = (toList l ++ [v]) ++ toList (node u c e) := by
                simp [toList_node]
              rw [he]
              refine List.Perm.trans (List.Perm.append_left (toList l ++ [v]) hperm) ?_
              have h2 : (x :: toList (node v l r) : List Node)
                  = x :: ((toList l ++ [v]) ++ toList r) := by simp [toList_node]
              rw [h2]
              exact List.perm_middle
          · rw [toList_node, toList_node]
            refine List.Perm.trans (List.Perm.append_left (toList l)
              ((hperm.cons v).symm.symm)) ?_
            have h2 : (x :: (toList l ++ v :: toList r) : List Node)
                = x :: ((toList l ++ [v]) ++ toList r) := by simp
            have h3 : (toList l ++ v :: x :: toList r : List Node)
                = (toList l ++ [v]) ++ x :: toList r := by simp
            rw [h2, h3]
            exact List.perm_middle
      · cases h

theorem PosLen_node {v : Node} {l r : MapTree} :
    PosLen (node v l r) ↔ v.div_start < v.div_end ∧ PosLen l ∧ PosLen r := by
  simp only [PosLen, toList_node, List.mem_append, List.mem_cons]
  constructor
  · intro h
    exact ⟨h v (Or.inr (Or.inl rfl)), fun n hn => h n (Or.inl hn),
           fun n hn => h n (Or.inr (Or.inr hn))⟩
  · rintro ⟨hv, hl, hr⟩ n (hn | rfl | hn)
    · exact hl n hn
    · exact hv
    · exact hr n hn

theorem AscStarts_node {v : Node} {l r : MapTree} (h : AscStarts (node v l r)) :
    AscStarts l ∧ AscStarts r ∧ (∀ a ∈ startsList l, a < v.div_start) ∧
      (∀ b ∈ startsList r, v.div_start < b) := by
  unfold AscStarts at *
  rw [startsList_node, List.pairwise_append] at h
  obtain ⟨h1, h2, h3⟩ := h
  rw [List.pairwise_cons] at h2
  exact ⟨h1, h2.2, fun a ha => h3 a ha _ (List.mem_cons_self _ _), h2.1⟩

/-- Where a successful insert puts the new `div_start` in the in-order
sequence: strictly after everything the search passed on the right,
strictly before everything it passed on the left. -/
theorem insert_starts_split {x : Node} {t t' : MapTree}
    (hpos : PosLen t) (hasc : AscStarts t)
    (h : map_tree_insert_node x t = some t') :
    ∃ A B, startsList t = A ++ B ∧
      startsList t' = A ++ x.div_start :: B ∧
      (∀ a ∈ A, a < x.div_start) ∧ (∀ b ∈ B, x.div_start < b) := by
  induction t generalizing t' with
  | nil =>
    simp [map_tree_insert_node] at h
    subst h
    exact ⟨[], [], by simp [startsList, toList], by simp [startsList, toList],
           by simp, by simp⟩
  | node v l r ihl ihr =>
    obtain ⟨hvpos, hlpos, hrpos⟩ := PosLen_node.mp hpos
    obtain ⟨hlasc, hrasc, hlv, hvr⟩ := AscStarts_node hasc
    rw [map_tree_insert_node] at h
    split at h
    · rename_i hx
      split at h
      · cases h
      · rename_i l' hl'
        obtain ⟨A, B, hAB, hAB', hA, hB⟩ := ihl hlpos hlasc hl'
        have hst : startsList t' = startsList l' ++ v.div_start :: startsList r := by
          split at h <;> injection h with h <;> subst h
          · cases l' with
            | nil => simp [startsList, toList] at hAB'
            | node w a b =>
              rw [rotateLeftSon_node, startsList_node, startsList_node,
                  startsList_node]
              simp
          · rw [startsList_node]
        refine ⟨A, B ++ v.div_start :: startsList r, ?_, ?_, hA, ?_⟩
        · rw [startsList_node, hAB]; simp
        · rw [hst, hAB']; simp
        · intro b hb
          rcases List.mem_append.mp hb with hb | hb
          · exact hB b hb
          · rcases List.mem_cons.mp hb with rfl | hb
            · exact hx
            · exact lt_trans hx (hvr b hb)
    · split at h
      · rename_i hx
        split at h
        · cases h
        · rename_i r' hr'
          obtain ⟨A, B, hAB, hAB', hA, hB⟩ := ihr hrpos hrasc hr'
          have hst : startsList t' = startsList l ++ v.div_start :: startsList r' := by
            split at h <;> injection h with h <;> subst h
            · cases r' with
              | nil => simp [startsList, toList] at hAB'
              | node u c e =>
                rw [rotateRightSon_node, startsList_node, startsList_node,
                    startsList_node]
                simp
            · rw [startsList_node]
          have hvx : v.div_start < x.div_start := lt_of_lt_of_le hvpos hx
          refine ⟨startsList l ++ v.div_start :: A, B, ?_, ?_, ?_, hB⟩
          · rw [startsList_node, hAB]; simp
          · rw [hst, hAB']; simp
          · intro a ha
            rcases List.mem_append.mp ha with ha | ha
            · exact lt_trans (hlv a ha) hvx
            · rcases List.mem_cons.mp ha with rfl | ha
              · exact hvx
              · exact hA a ha
      · cases h

/-- A successful insert into a tree of positive-length intervals with
strictly ascending in-order starts yields strictly ascending in-order
starts again. -/
theorem insert_asc {x : Node} {t t' : MapTree}
    (hpos : PosLen t) (hasc : AscStarts t)
    (h : map_tree_insert_node x t = some t') : AscStarts t' := by
  obtain ⟨A, B, hAB, hAB', hA, hB⟩ := insert_starts_split hpos hasc h
  have hasc' : List.Pairwise (· < ·) (A ++ B) := by
    rw [AscStarts, hAB] at hasc; exact hasc
  rw [List.pairwise_append] at hasc'
  obtain ⟨hpA, hpB, hABx⟩ := hasc'
  unfold AscStarts
  rw [hAB', List.pairwise_append, List.pairwise_cons]
  refine ⟨hpA, ⟨hB, hpB⟩, ?_⟩
  intro a ha b hb
  rcases List.mem_cons.mp hb with rfl | hb
  · exact hA a ha
  · exact hABx a ha b hb

theorem rootPrio_nil : rootPrio nil = 0 := rfl

theorem rootPrio_node (v : Node) (l r : MapTree) :
    rootPrio (node v l r) = v.prio := rfl

theorem IsHeap_node {v : Node} {l r : MapTree} :
    IsHeap (node v l r) ↔
      l.rootPrio ≤ v.prio ∧ r.rootPrio ≤ v.prio ∧ IsHeap l ∧ IsHeap r :=
  Iff.rfl

/-- Heap preservation for insert, strengthened for the induction: the
new root priority is the max of the old one and the inserted one, and
when the inserted priority dominates, the new node ends up at the root
with only old material (priority-bounded by the old root) below it. -/
theorem insert_heap {x : Node} {t t' : MapTree} (hh : IsHeap t)
    (h : map_tree_insert_node x t = some t') :
    IsHeap t' ∧ t'.rootPrio = max t.rootPrio x.prio ∧
      (t.rootPrio < x.prio → ∃ a b, t' = node x a b ∧
        (∀ n ∈ toList a, n.prio ≤ t.rootPrio) ∧
        (∀ n ∈ toList b, n.prio ≤ t.rootPrio)) := by
  induction t generalizing t' with
  | nil =>
    simp [map_tree_insert_node] at h
    subst h
    refine ⟨⟨Nat.zero_le _, Nat.zero_le _, trivial, trivial⟩, ?_, ?_⟩
    · simp [rootPrio_node, rootPrio_nil]
    · intro _
      exact ⟨nil, nil, rfl, by simp [toList], by simp [toList]⟩
  | node v l r ihl ihr =>
    obtain ⟨hlp, hrp, Hl, Hr⟩ := IsHeap_node.mp hh
    rw [map_tree_insert_node] at h
    split at h
    · split at h
      · cases h
      · rename_i l' hl'
        obtain ⟨Hl', hroot', hpart3⟩ := ihl Hl hl'
        split at h <;> injection h with h <;> subst h
        · rename_i hlt
          have hvx : v.prio < x.prio := by
            rw [hroot'] at hlt
            rcases lt_max_iff.mp hlt with hc | hc
            · omega
            · exact hc
          have hx : l.rootPrio < x.prio := lt_of_le_of_lt hlp hvx
          obtain ⟨a, b, rfl, hpa, hpb⟩ := hpart3 hx
          obtain ⟨ha_le, hb_le, Ha, Hb⟩ := IsHeap_node.mp Hl'
          rw [rotateLeftSon_node]
          refine ⟨?_, ?_, ?_⟩
          · refine IsHeap_node.mpr ⟨ha_le, ?_, Ha, ?_⟩
            · rw [rootPrio_node]; exact hvx.le
            · refine IsHeap_node.mpr ⟨?_, hrp, Hb, Hr⟩
              exact rootPrio_le_of_forall fun n hn => le_trans (hpb n hn) hlp
          · rw [rootPrio_node, rootPrio_node, Nat.max_eq_right hvx.le]
          · intro _
            refine ⟨a, node v b r, rfl, ?_, ?_⟩
            · exact fun n hn => le_trans (hpa n hn) hlp
            · intro n hn
              rw [toList_node] at hn
              rcases List.mem_append.mp hn with hn | hn
              · exact le_trans (hpb n hn) hlp
              · rcases List.mem_cons.mp hn with rfl | hn
                · exact le_refl _
                · exact le_trans (Hr.prio_le_root n hn) hrp
        · rename_i hge
          have hxle : x.prio ≤ v.prio := by
            have h1 : l'.rootPrio ≤ v.prio := le_of_not_lt hge
            rw [hroot'] at h1
            exact le_trans (le_max_right _ _) h1
          refine ⟨IsHeap_node.mpr ⟨le_of_not_lt hge, hrp, Hl', Hr⟩, ?_, ?_⟩
          · rw [rootPrio_node, rootPrio_node, Nat.max_eq_left hxle]
          · intro hc; exact absurd hxle (not_le.mpr hc)
    · split at h
      · split at h
        · cases h
        · rename_i r' hr'
          obtain ⟨Hr', hroot', hpart3⟩ := ihr Hr hr'
          split at h <;> injection h with h <;> subst h
          · rename_i hlt
            have hvx : v.prio < x.prio := by
              rw [hroot'] at hlt
              rcases lt_max_iff.mp hlt with hc | hc
              · omega
              · exact hc
            have hx : r.rootPrio < x.prio := lt_of_le_of_lt hrp hvx
            obtain ⟨c, e, rfl, hpc, hpe⟩ := hpart3 hx
            obtain ⟨hc_le, he_le, Hc, He⟩ := IsHeap_node.mp Hr'
            rw [rotateRightSon_node]
            refine ⟨?_, ?_, ?_⟩
            · refine IsHeap_node.mpr ⟨?_, he_le, ?_, He⟩
              · rw [rootPrio_node]; exact hvx.le
              · refine IsHeap_node.mpr ⟨hlp, ?_, Hl, Hc⟩
                exact rootPrio_le_of_forall fun n hn => le_trans (hpc n hn) hrp
            · rw [rootPrio_node, rootPrio_node, Nat.max_eq_right hvx.le]
            · intro _
              refine ⟨node v l c, e, rfl, ?_, ?_⟩
              · intro n hn
                rw [toList_node] at hn
                rcases List.mem_append.mp hn with hn | hn
                · exact le_trans (Hl.prio_le_root n hn) hlp
                · rcases List.mem_cons.mp hn with rfl | hn
                  · exact le_refl _
                  · exact le_trans (hpc n hn) hrp
              · exact fun n hn => le_trans (hpe n hn) hrp
          · rename_i hge
            have hxle : x.prio ≤ v.prio := by
              have h1 : r'.rootPrio ≤ v.prio := le_of_not_lt hge
              rw [hroot'] at h1
              exact le_trans (le_max_right _ _) h1
            refine ⟨IsHeap_node.mpr ⟨hlp, le_of_not_lt hge, Hl, Hr'⟩, ?_, ?_⟩
            · rw [rootPrio_node, rootPrio_node, Nat.max_eq_left hxle]
            · intro hc; exact absurd hxle (not_le.mpr hc)
      · cases h

theorem size_node (v : Node) (l r : MapTree) :
    size (node v l r) = size l + size r + 1 := rfl

/-! ### Branch equations of `map_tree_delete_node` -/

theorem delete_nil_eq (d : Nat) : map_tree_delete_node d nil = none := by
  rw [map_tree_delete_node.eq_def]

theorem delete_desc_left {d : Nat} {v : Node} {l r : MapTree}
    (h : d < v.div_start) :
    map_tree_delete_node d (node v l r)
      = (map_tree_delete_node d l).map fun p => (p.1, node v p.2 r) := by
  rw [map_tree_delete_node.eq_def]
  dsimp only
  rw [if_pos h]

theorem delete_desc_right {d : Nat} {v : Node} {l r : MapTree}
    (h1 : v.div_start ≤ d) (h2 : v.div_end ≤ d) :
    map_tree_delete_node d (node v l r)
      = (map_tree_delete_node d r).map fun p => (p.1, node v l p.2) := by
  rw [map_tree_delete_node.eq_def]
  dsimp only
  rw [if_neg (not_lt.mpr h1), if_pos h2]

theorem delete_found_left_nil {d : Nat} {v : Node} {r : MapTree}
    (h1 : v.div_start ≤ d) (h2 : d < v.div_end) :
    map_tree_delete_node d (node v nil r) = some ({ v with prio := 0 }, r) := by
  rw [map_tree_delete_node.eq_def]
  dsimp only
  rw [if_neg (not_lt.mpr h1), if_neg (not_le.mpr h2)]

theorem delete_found_right_nil {d : Nat} {v w : Node} {a b : MapTree}
    (h1 : v.div_start ≤ d) (h2 : d < v.div_end) :
    map_tree_delete_node d (node v (node w a b) nil)
      = some ({ v with prio := 0 }, node w a b) := by
  rw [map_tree_delete_node.eq_def]
  dsimp only
  rw [if_neg (not_lt.mpr h1), if_neg (not_le.mpr h2)]

theorem delete_found_rot_left {d : Nat} {v w u : Node} {a b c e : MapTree}
    (h1 : v.div_start ≤ d) (h2 : d < v.div_end) (hp : u.prio < w.prio) :
    map_tree_delete_node d (node v (node w a b) (node u c e))
      = (map_tree_delete_node d (node { v with prio := 0 } b (node u c e))).map
          fun p => (p.1, node w a p.2) := by
  rw [map_tree_delete_node.eq_def]
  dsimp only
  rw [if_neg (not_lt.mpr h1), if_neg (not_le.mpr h2), if_pos hp]

theorem delete_found_rot_right {d : Nat} {v w u : Node} {a b c e : MapTree}
    (h1 : v.div_start ≤ d) (h2 : d < v.div_end) (hp : ¬ u.prio < w.prio) :
    map_tree_delete_node d (node v (node w a b) (node u c e))
      = (map_tree_delete_node d (node { v with prio := 0 } (node w a b) c)).map
          fun p => (p.1, node u p.2 e) := by
  rw [map_tree_delete_node.eq_def]
  dsimp only
  rw [if_neg (not_lt.mpr h1), if_neg (not_le.mpr h2), if_neg hp]

/-- What deletion does once the search has arrived at the node containing
`d`: the returned node is that node with its priority zeroed, the
remaining subtree holds exactly the two children's nodes, and the
in-order starts of the remaining subtree are a sublist of the two
children's in-order starts. -/
theorem delete_found_shape {d : Nat} :
    ∀ (N : Nat) (v : Node) (l r : MapTree), size (node v l r) ≤ N →
    v.div_start ≤ d → d < v.div_end →
    ∀ {n : Node} {t' : MapTree},
      map_tree_delete_node d (node v l r) = some (n, t') →
      n = { v with prio := 0 } ∧ (toList t').Perm (toList l ++ toList r) ∧
      (startsList t').Sublist (startsList l ++ startsList r) := by
  intro N
  induction N with
  | zero =>
    intro v l r hsz hd1 hd2 n t' h
    rw [size_node] at hsz
    omega
  | succ N ih =>
    intro v l r hsz hd1 hd2 n t' h
    cases l with
    | nil =>
      rw [delete_found_left_nil hd1 hd2] at h
      injection h with h
      injection h with hn ht
      subst hn; subst ht
      exact ⟨rfl, by simp [toList], by simp [startsList, toList]⟩
    | node w a b =>
      cases r with
      | nil =>
        rw [delete_found_right_nil hd1 hd2] at h
        injection h with h
        injection h with hn ht
        subst hn; subst ht
        exact ⟨rfl, by simp [toList], by simp [startsList, toList]⟩
      | node u c e =>
        by_cases hp : u.prio < w.prio
        · rw [delete_found_rot_left hd1 hd2 hp] at h
          cases hrec : map_tree_delete_node d
              (node { v with prio := 0 } b (node u c e)) with
          | none => rw [hrec] at h; cases h
          | some p =>
            rw [hrec, Option.map_some'] at h
            obtain ⟨n', s⟩ := p
            injection h with h
            injection h with hn ht
            subst hn; subst ht
            have hsub : size (node { v with prio := 0 } b (node u c e)) ≤ N := by
              simp only [size_node] at hsz ⊢
              omega
            obtain ⟨h1, h2, h3⟩ := ih { v with prio := 0 } b (node u c e) hsub hd1 hd2 hrec
            refine ⟨?_, ?_, ?_⟩
            · rw [h1]
            · rw [toList_node]
              have he : toList (node w a b) ++ toList (node u c e)
                  = toList a ++ w :: (toList b ++ toList (node u c e)) := by
                simp [toList_node]
              rw [he]
              exact (h2.cons w).append_left (toList a)
            · rw [startsList_node]
              have he : startsList (node w a b) ++ startsList (node u c e)
                  = startsList a ++ w.div_start ::
                    (startsList b ++ startsList (node u c e)) := by
                simp [startsList_node]
              rw [he]
              exact ((h3.cons₂ w.div_start).append_left (startsList a))
        · rw [delete_found_rot_right hd1 hd2 hp] at h
          cases hrec : map_tree_delete_node d
              (node { v with prio := 0 } (node w a b) c) with
          | none => rw [hrec] at h; cases h
          | some p =>
            rw [hrec, Option.map_some'] at h
            obtain ⟨n', s⟩ := p
            injection h with h
            injection h with hn ht
            subst hn; subst ht
            have hsub : size (node { v with prio := 0 } (node w a b) c) ≤ N := by
              simp only [size_node] at hsz ⊢
              omega
            obtain ⟨h1, h2, h3⟩ := ih { v with prio := 0 } (node w a b) c hsub hd1 hd2 hrec
            refine ⟨?_, ?_, ?_⟩
            · rw [h1]
            · rw [toList_node]
              have he : toList (node w a b) ++ toList (node u c e)
                  = (toList (node w a b) ++ toList c) ++ u :: toList e := by
                simp [toList_node]
              rw [he]
              exact (h2.append_right (u :: toList e))
            · rw [startsList_node]
              have he : startsList (node w a b) ++ startsList (node u c e)
                  = (startsList (node w a b) ++ startsList c) ++
                    u.div_start :: startsList e := by
                simp [startsList_node]
              rw [he]
              exact h3.append (List.Sublist.refl _)

/-- Heap preservation once the search has arrived at the containing
node: deleting the root of `node v l r` leaves a heap whose root
priority is bounded by the children's root priorities. -/
theorem delete_found_heap {d : Nat} :
    ∀ (N : Nat) (v : Node) (l r : MapTree), size (node v l r) ≤ N →
    v.div_start ≤ d → d < v.div_end → IsHeap l → IsHeap r →
    ∀ {n : Node} {t' : MapTree},
      map_tree_delete_node d (node v l r) = some (n, t') →
      IsHeap t' ∧ t'.rootPrio ≤ max l.rootPrio r.rootPrio := by
  intro N
  induction N with
  | zero =>
    intro v l r hsz _ _ _ _ n t' _
    rw [size_node] at hsz
    omega
  | succ N ih =>
    intro v l r hsz hd1 hd2 Hl Hr n t' h
    cases l with
    | nil =>
      rw [delete_found_left_nil hd1 hd2] at h
      injection h with h
      injection h with hn ht
      subst ht
      exact ⟨Hr, le_max_right _ _⟩
    | node w a b =>
      cases r with
      | nil =>
        rw [delete_found_right_nil hd1 hd2] at h
        injection h with h
        injection h with hn ht
        subst ht
        exact ⟨Hl, le_max_left _ _⟩
      | node u c e =>
        obtain ⟨ha, hb, Ha, Hb⟩ := IsHeap_node.mp Hl
        obtain ⟨hc, he, Hc, He⟩ := IsHeap_node.mp Hr
        by_cases hp : u.prio < w.prio
        · rw [delete_found_rot_left hd1 hd2 hp] at h
          cases hrec : map_tree_delete_node d
              (node { v with prio := 0 } b (node u c e)) with
          | none => rw [hrec] at h; cases h
          | some p =>
            rw [hrec, Option.map_some'] at h
            obtain ⟨n', s⟩ := p
            injection h with h
            injection h with hn ht
            subst ht
            have hsub : size (node { v with prio := 0 } b (node u c e)) ≤ N := by
              simp only [size_node] at hsz ⊢
              omega
            obtain ⟨H1, H2⟩ := ih { v with prio := 0 } b (node u c e) hsub hd1 hd2
              Hb (IsHeap_node.mpr ⟨hc, he, Hc, He⟩) hrec
            refine ⟨IsHeap_node.mpr ⟨ha, ?_, Ha, H1⟩, ?_⟩
            · refine le_trans H2 (max_le hb ?_)
              rw [rootPrio_node]
              exact hp.le
            · rw [rootPrio_node, rootPrio_node]
              exact le_max_left _ _
        · rw [delete_found_rot_right hd1 hd2 hp] at h
          cases hrec : map_tree_delete_node d
              (node { v with prio := 0 } (node w a b) c) with
          | none => rw [hrec] at h; cases h
          | some p =>
            rw [hrec, Option.map_some'] at h
            obtain ⟨n', s⟩ := p
            injection h with h
            injection h with hn ht
            subst ht
            have hsub : size (node { v with prio := 0 } (node w a b) c) ≤ N := by
              simp only [size_node] at hsz ⊢
              omega
            obtain ⟨H1, H2⟩ := ih { v with prio := 0 } (node w a b) c hsub hd1 hd2
              (IsHeap_node.mpr ⟨ha, hb, Ha, Hb⟩) Hc hrec
            refine ⟨IsHeap_node.mpr ⟨?_, he, H1, He⟩, ?_⟩
            · refine le_trans H2 (max_le ?_ hc)
              rw [rootPrio_node]
              exact not_lt.mp hp
            · rw [rootPrio_node, rootPrio_node]
              exact le_max_right _ _

/-- The delete that has arrived at the containing node always returns. -/
theorem delete_found_isSome {d : Nat} :
    ∀ (N : Nat) (v : Node) (l r : MapTree), size (node v l r) ≤ N →
    v.div_start ≤ d → d < v.div_end →
    (map_tree_delete_node d (node v l r)).isSome := by
  intro N
  induction N with
  | zero =>
    intro v l r hsz _ _
    rw [size_node] at hsz
    omega
  | succ N ih =>
    intro v l r hsz hd1 hd2
    cases l with
    | nil => rw [delete_found_left_nil hd1 hd2]; rfl
    | node w a b =>
      cases r with
      | nil => rw [delete_found_right_nil hd1 hd2]; rfl
      | node u c e =>
        by_cases hp : u.prio < w.prio
        · rw [delete_found_rot_left hd1 hd2 hp]
          have hsub : size (node { v with prio := 0 } b (node u c e)) ≤ N := by
            simp only [size_node] at hsz ⊢
            omega
          obtain ⟨p, hp'⟩ := Option.isSome_iff_exists.mp
            (ih { v with prio := 0 } b (node u c e) hsub hd1 hd2)
          rw [hp']
          rfl
        · rw [delete_found_rot_right hd1 hd2 hp]
          have hsub : size (node { v with prio := 0 } (node w a b) c) ≤ N := by
            simp only [size_node] at hsz ⊢
            omega
          obtain ⟨p, hp'⟩ := Option.isSome_iff_exists.mp
            (ih { v with prio := 0 } (node w a b) c hsub hd1 hd2)
          rw [hp']
          rfl

/-- Heap preservation for delete: on a heap, a successful delete leaves
a heap and does not increase the root priority. -/
theorem delete_heap {d : Nat} {t : MapTree} (hh : IsHeap t) :
    ∀ {n : Node} {t' : MapTree}, map_tree_delete_node d t = some (n, t') →
    IsHeap t' ∧ t'.rootPrio ≤ t.rootPrio := by
  induction t with
  | nil => intro n t' h; rw [delete_nil_eq] at h; cases h
  | node v l r ihl ihr =>
    intro n t' h
    obtain ⟨hlp, hrp, Hl, Hr⟩ := IsHeap_node.mp hh
    by_cases h1 : d < v.div_start
    · rw [delete_desc_left h1] at h
      cases hrec : map_tree_delete_node d l with
      | none => rw [hrec] at h; cases h
      | some p =>
        rw [hrec, Option.map_some'] at h
        obtain ⟨n', l'⟩ := p
        injection h with h
        injection h with hn ht
        subst ht
        obtain ⟨H1, H2⟩ := ihl Hl hrec
        refine ⟨IsHeap_node.mpr ⟨le_trans H2 hlp, hrp, H1, Hr⟩, ?_⟩
        rw [rootPrio_node, rootPrio_node]
    · by_cases h2 : v.div_end ≤ d
      · rw [delete_desc_right (not_lt.mp h1) h2] at h
        cases hrec : map_tree_delete_node d r with
        | none => rw [hrec] at h; cases h
        | some p =>
          rw [hrec, Option.map_some'] at h
          obtain ⟨n', r'⟩ := p
          injection h with h
          injection h with hn ht
          subst ht
          obtain ⟨H1, H2⟩ := ihr Hr hrec
          refine ⟨IsHeap_node.mpr ⟨hlp, le_trans H2 hrp, Hl, H1⟩, ?_⟩
          rw [rootPrio_node, rootPrio_node]
      · obtain ⟨H1, H2⟩ := delete_found_heap (size (node v l r)) v l r (le_refl _)
          (not_lt.mp h1) (not_le.mp h2) Hl Hr h
        refine ⟨H1, ?_⟩
        rw [rootPrio_node]
        exact le_trans H2 (max_le hlp hrp)

/-- What a successful delete does to the live set and the in-order
starts: it removes exactly one node, which contains `d` and is returned
with its priority zeroed, and the in-order starts of the result are a
sublist of the original ones. -/
theorem delete_spec {d : Nat} {t : MapTree} :
    ∀ {n : Node} {t' : MapTree}, map_tree_delete_node d t = some (n, t') →
    ∃ v, v ∈ toList t ∧ contains v d ∧ n = { v with prio := 0 } ∧
      (toList t).Perm (v :: toList t') ∧
      (startsList t').Sublist (startsList t) := by
  induction t with
  | nil => intro n t' h; rw [delete_nil_eq] at h; cases h
  | node rt l r ihl ihr =>
    intro n t' h
    by_cases h1 : d < rt.div_start
    · rw [delete_desc_left h1] at h
      cases hrec : map_tree_delete_node d l with
      | none => rw [hrec] at h; cases h
      | some p =>
        rw [hrec, Option.map_some'] at h
        obtain ⟨n', l'⟩ := p
        injection h with h
        injection h with hn ht
        subst hn; subst ht
        obtain ⟨v, hvm, hvc, hvn, hvp, hvs⟩ := ihl hrec
        refine ⟨v, by rw [toList_node]; exact List.mem_append_left _ hvm, hvc, hvn,
          ?_, ?_⟩
        · rw [toList_node, toList_node]
          exact List.Perm.trans (hvp.append_right (rt :: toList r)) (by rfl)
        · rw [startsList_node, startsList_node]
          exact hvs.append (List.Sublist.refl _)
    · by_cases h2 : rt.div_end ≤ d
      · rw [delete_desc_right (not_lt.mp h1) h2] at h
        cases hrec : map_tree_delete_node d r with
        | none => rw [hrec] at h; cases h
        | some p =>
          rw [hrec, Option.map_some'] at h
          obtain ⟨n', r'⟩ := p
          injection h with h
          injection h with hn ht
          subst hn; subst ht
          obtain ⟨v, hvm, hvc, hvn, hvp, hvs⟩ := ihr hrec
          have hvm' : v ∈ toList (node rt l r) := by
            rw [toList_node]
            exact List.mem_append_right _ (List.mem_cons_of_mem _ hvm)
          refine ⟨v, hvm', hvc, hvn, ?_, ?_⟩
          · rw [toList_node, toList_node]
            refine List.Perm.trans (List.Perm.append_left (toList l)
              ((hvp.cons rt))) ?_
            have he1 : (toList l ++ rt :: v :: toList r' : List Node)
                = (toList l ++ [rt]) ++ v :: toList r' := by simp
            have he2 : (v :: (toList l ++ rt :: toList r') : List Node)
                = v :: ((toList l ++ [rt]) ++ toList r') := by simp
            rw [he1, he2]
            exact List.perm_middle
          · rw [startsList_node, startsList_node]
            exact ((hvs.cons₂ rt.div_start).append_left (startsList l))
      · obtain ⟨hn, hperm, hsub⟩ := delete_found_shape (size (node rt l r)) rt l r
          (le_refl _) (not_lt.mp h1) (not_le.mp h2) h
        refine ⟨rt, self_mem_toList rt l r, ⟨not_lt.mp h1, not_le.mp h2⟩, hn, ?_, ?_⟩
        · rw [toList_node]
          exact List.Perm.trans List.perm_middle (hperm.symm.cons rt)
        · rw [startsList_node]
          refine hsub.trans ?_
          exact List.Sublist.append_left (List.sublist_cons_self _ _) _

theorem Bounded_node {lo hi : Nat} {v : Node} {l r : MapTree} :
    Bounded lo hi (node v l r) ↔
      lo ≤ v.div_start ∧ v.div_start ≤ v.div_end ∧ v.div_end ≤ hi ∧
      Bounded lo v.div_start l ∧ Bounded v.div_end hi r :=
  Iff.rfl

theorem Bounded_mem {t : MapTree} :
    ∀ {lo hi : Nat}, Bounded lo hi t →
    ∀ v ∈ toList t, lo ≤ v.div_start ∧ v.div_start ≤ v.div_end ∧ v.div_end ≤ hi := by
  induction t with
  | nil => intro lo hi _ v hv; simp [toList] at hv
  | node rt l r ihl ihr =>
    intro lo hi hb v hv
    obtain ⟨h1, h2, h3, hbl, hbr⟩ := Bounded_node.mp hb
    rw [toList_node] at hv
    rcases List.mem_append.mp hv with hv | hv
    · obtain ⟨g1, g2, g3⟩ := ihl hbl v hv
      exact ⟨g1, g2, le_trans g3 (le_trans h2 h3)⟩
    · rcases List.mem_cons.mp hv with rfl | hv
      · exact ⟨h1, h2, h3⟩
      · obtain ⟨g1, g2, g3⟩ := ihr hbr v hv
        exact ⟨le_trans (le_trans h1 h2) g1, g2, g3⟩

/-- If no live node contains `d`, the delete search falls off the tree
and hits the fatal path. -/
theorem delete_none_of_not_contains {d : Nat} {t : MapTree}
    (h : ∀ v ∈ toList t, ¬ contains v d) :
    map_tree_delete_node d t = none := by
  induction t with
  | nil => exact delete_nil_eq d
  | node rt l r ihl ihr =>
    have hroot := h rt (self_mem_toList rt l r)
    by_cases h1 : d < rt.div_start
    · rw [delete_desc_left h1]
      rw [ihl fun v hv => h v (by rw [toList_node]; exact List.mem_append_left _ hv)]
      rfl
    · have h2 : rt.div_end ≤ d := by
        by_contra hc
        exact hroot ⟨not_lt.mp h1, not_le.mp hc⟩
      rw [delete_desc_right (not_lt.mp h1) h2]
      rw [ihr fun v hv => h v (by
        rw [toList_node]
        exact List.mem_append_right _ (List.mem_cons_of_mem _ hv))]
      rfl

/-- Under the interval-search invariant, the delete search finds any
live node that contains `d`. -/
theorem delete_isSome_of_contains {d : Nat} {t : MapTree} :
    ∀ {lo hi : Nat}, Bounded lo hi t →
    ∀ {v : Node}, v ∈ toList t → contains v d →
    (map_tree_delete_node d t).isSome := by
  induction t with
  | nil => intro lo hi _ v hv; simp [toList] at hv
  | node rt l r ihl ihr =>
    intro lo hi hb v hv hc
    obtain ⟨h1, h2, h3, hbl, hbr⟩ := Bounded_node.mp hb
    rw [toList_node] at hv
    by_cases hd1 : d < rt.div_start
    · have hvl : v ∈ toList l := by
        rcases List.mem_append.mp hv with hv | hv
        · exact hv
        · rcases List.mem_cons.mp hv with rfl | hv
          · exact absurd hc.1 (not_le.mpr hd1)
          · obtain ⟨g1, _, _⟩ := Bounded_mem hbr v hv
            exact absurd (le_trans (le_trans h2 g1) hc.1) (not_le.mpr hd1)
      rw [delete_desc_left hd1]
      obtain ⟨p, hp⟩ := Option.isSome_iff_exists.mp (ihl hbl hvl hc)
      rw [hp]
      rfl
    · by_cases hd2 : rt.div_end ≤ d
      · have hvr : v ∈ toList r := by
          rcases List.mem_append.mp hv with hv | hv
          · obtain ⟨_, _, g3⟩ := Bounded_mem hbl v hv
            exact absurd (lt_of_lt_of_le hc.2 (le_trans (le_trans g3 h2) hd2))
              (lt_irrefl d)
          · rcases List.mem_cons.mp hv with rfl | hv
            · exact absurd hc.2 (not_lt.mpr hd2)
            · exact hv
        rw [delete_desc_right (not_lt.mp hd1) hd2]
        obtain ⟨p, hp⟩ := Option.isSome_iff_exists.mp (ihr hbr hvr hc)
        rw [hp]
        rfl
      · exact delete_found_isSome (size (node rt l r)) rt l r (le_refl _)
          (not_lt.mp hd1) (not_le.mp hd2)

/-- Under the interval-search invariant, the lookup descent returns
exactly the live node containing the queried address. -/
theorem lookup_correct {d : Nat} {t : MapTree} :
    ∀ {lo hi : Nat}, Bounded lo hi t →
    ∀ {x : Node}, x ∈ toList t → contains x d →
    map_tree_lookup d t = some x := by
  induction t with
  | nil => intro lo hi _ x hx; simp [toList] at hx
  | node rt l r ihl ihr =>
    intro lo hi hb x hx hc
    obtain ⟨h1, h2, h3, hbl, hbr⟩ := Bounded_node.mp hb
    rw [toList_node] at hx
    rw [map_tree_lookup]
    by_cases hd1 : d < rt.div_start
    · rw [if_pos hd1]
      have hxl : x ∈ toList l := by
        rcases List.mem_append.mp hx with hx | hx
        · exact hx
        · rcases List.mem_cons.mp hx with rfl | hx
          · exact absurd hc.1 (not_le.mpr hd1)
          · obtain ⟨g1, _, _⟩ := Bounded_mem hbr x hx
            exact absurd (le_trans (le_trans h2 g1) hc.1) (not_le.mpr hd1)
      exact ihl hbl hxl hc
    · rw [if_neg hd1]
      by_cases hd2 : rt.div_end ≤ d
      · rw [if_pos hd2]
        have hxr : x ∈ toList r := by
          rcases List.mem_append.mp hx with hx | hx
          · obtain ⟨_, _, g3⟩ := Bounded_mem hbl x hx
            exact absurd (lt_of_lt_of_le hc.2 (le_trans (le_trans g3 h2) hd2))
              (lt_irrefl d)
          · rcases List.mem_cons.mp hx with rfl | hx
            · exact absurd hc.2 (not_lt.mpr hd2)
            · exact hx
        exact ihr hbr hxr hc
      · rw [if_neg hd2]
        have hxrt : x = rt := by
          rcases List.mem_append.mp hx with hx | hx
          · obtain ⟨_, _, g3⟩ := Bounded_mem hbl x hx
            exact absurd (lt_of_lt_of_le hc.2 (le_trans g3 (not_lt.mp hd1)))
              (lt_irrefl d)
          · rcases List.mem_cons.mp hx with rfl | hx
            · rfl
            · obtain ⟨g1, _, _⟩ := Bounded_mem hbr x hx
              exact absurd (le_trans g1 hc.1) hd2
        rw [hxrt]

/-- Rotations preserve the interval-search invariant. -/
theorem Bounded_rotateLeftSon {lo hi : Nat} {t : MapTree}
    (h : Bounded lo hi t) : Bounded lo hi (rotateLeftSon t) := by
  cases t with
  | nil => exact h
  | node v l r =>
    cases l with
    | nil => exact h
    | node w a b =>
      obtain ⟨h1, h2, h3, hbl, hbr⟩ := Bounded_node.mp h
      obtain ⟨g1, g2, g3, hba, hbb⟩ := Bounded_node.mp hbl
      rw [rotateLeftSon_node]
      refine Bounded_node.mpr ⟨g1, g2, le_trans g3 (le_trans h2 h3), hba, ?_⟩
      exact Bounded_node.mpr ⟨g3, h2, h3, hbb, hbr⟩

/-- Rotations preserve the interval-search invariant. -/
theorem Bounded_rotateRightSon {lo hi : Nat} {t : MapTree}
    (h : Bounded lo hi t) : Bounded lo hi (rotateRightSon t) := by
  cases t with
  | nil => exact h
  | node v l r =>
    cases r with
    | nil => exact h
    | node u c e =>
      obtain ⟨h1, h2, h3, hbl, hbr⟩ := Bounded_node.mp h
      obtain ⟨g1, g2, g3, hbc, hbe⟩ := Bounded_node.mp hbr
      rw [rotateRightSon_node]
      refine Bounded_node.mpr ⟨le_trans (le_trans h1 h2) g1, g2, g3, ?_, hbe⟩
      exact Bounded_node.mpr ⟨h1, h2, g1, hbl, hbc⟩

/-- Inserting a positive-length interval that is disjoint from every
live interval into a tree satisfying the interval-search invariant
succeeds and preserves the invariant. -/
theorem insert_bounded {x : Node} {t : MapTree} :
    ∀ {lo hi : Nat}, Bounded lo hi t →
    lo ≤ x.div_start → x.div_start < x.div_end → x.div_end ≤ hi →
    (∀ v ∈ toList t, x.div_end ≤ v.div_start ∨ v.div_end ≤ x.div_start) →
    ∃ t', map_tree_insert_node x t = some t' ∧ Bounded lo hi t' := by
  induction t with
  | nil =>
    intro lo hi hb hx1 hx2 hx3 _
    exact ⟨node x nil nil, rfl,
      Bounded_node.mpr ⟨hx1, hx2.le, hx3, trivial, trivial⟩⟩
  | node v l r ihl ihr =>
    intro lo hi hb hx1 hx2 hx3 hdisj
    obtain ⟨h1, h2, h3, hbl, hbr⟩ := Bounded_node.mp hb
    rcases hdisj v (self_mem_toList v l r) with hcase | hcase
    · have hlt : x.div_start < v.div_start := lt_of_lt_of_le hx2 hcase
      obtain ⟨l', hins, hbl'⟩ := ihl hbl hx1 hx2 hcase fun w hw => hdisj w
        (by rw [toList_node]; exact List.mem_append_left _ hw)
      rw [map_tree_insert_node, if_pos hlt, hins]
      dsimp only
      have hbt : Bounded lo hi (node v l' r) :=
        Bounded_node.mpr ⟨h1, h2, h3, hbl', hbr⟩
      by_cases hpr : v.prio < l'.rootPrio
      · rw [if_pos hpr]
        exact ⟨_, rfl, Bounded_rotateLeftSon hbt⟩
      · rw [if_neg hpr]
        exact ⟨_, rfl, hbt⟩
    · have hge : v.div_end ≤ x.div_start := hcase
      have hnlt : ¬ x.div_start < v.div_start :=
        not_lt.mpr (le_trans h2 hcase)
      obtain ⟨r', hins, hbr'⟩ := ihr hbr hcase hx2 hx3 fun w hw => hdisj w
        (by rw [toList_node]
            exact List.mem_append_right _ (List.mem_cons_of_mem _ hw))
      rw [map_tree_insert_node, if_neg hnlt, if_pos hge, hins]
      dsimp only
      have hbt : Bounded lo hi (node v l r') :=
        Bounded_node.mpr ⟨h1, h2, h3, hbl, hbr'⟩
      by_cases hpr : v.prio < r'.rootPrio
      · rw [if_pos hpr]
        exact ⟨_, rfl, Bounded_rotateRightSon hbt⟩
      · rw [if_neg hpr]
        exact ⟨_, rfl, hbt⟩

/-- A fatal insert means some node on the search path — in particular
some live node — contains the new `div_start`. -/
theorem insert_none_mem {x : Node} {t : MapTree}
    (h : map_tree_insert_node x t = none) :
    ∃ v ∈ toList t, contains v x.div_start := by
  induction t with
  | nil => simp [map_tree_insert_node] at h
  | node v l r ihl ihr =>
    rw [map_tree_insert_node] at h
    split at h
    · split at h
      · rename_i hl'
        obtain ⟨w, hw, hc⟩ := ihl hl'
        exact ⟨w, by rw [toList_node]; exact List.mem_append_left _ hw, hc⟩
      · split at h <;> cases h
    · split at h
      · split at h
        · rename_i hr'
          obtain ⟨w, hw, hc⟩ := ihr hr'
          refine ⟨w, ?_, hc⟩
          rw [toList_node]
          exact List.mem_append_right _ (List.mem_cons_of_mem _ hw)
        · split at h <;> cases h
      · rename_i hc1 hc2
        exact ⟨v, self_mem_toList v l r, ⟨not_lt.mp hc1, not_le.mp hc2⟩⟩

/-- Under the interval-search invariant, an insert whose `div_start`
lies inside some live interval reaches the fatal path. -/
theorem insert_none_of_contains {x : Node} {t : MapTree} :
    ∀ {lo hi : Nat}, Bounded lo hi t →
    ∀ {v : Node}, v ∈ toList t → contains v x.div_start →
    map_tree_insert_node x t = none := by
  induction t with
  | nil => intro lo hi _ v hv; simp [toList] at hv
  | node rt l r ihl ihr =>
    intro lo hi hb v hv hc
    obtain ⟨h1, h2, h3, hbl, hbr⟩ := Bounded_node.mp hb
    rw [toList_node] at hv
    rw [map_tree_insert_node]
    by_cases hd1 : x.div_start < rt.div_start
    · rw [if_pos hd1]
      have hvl : v ∈ toList l := by
        rcases List.mem_append.mp hv with hv | hv
        · exact hv
        · rcases List.mem_cons.mp hv with rfl | hv
          · exact absurd hc.1 (not_le.mpr hd1)
          · obtain ⟨g1, _, _⟩ := Bounded_mem hbr v hv
            exact absurd (le_trans (le_trans h2 g1) hc.1) (not_le.mpr hd1)
      rw [ihl hbl hvl hc]
    · rw [if_neg hd1]
      by_cases hd2 : rt.div_end ≤ x.div_start
      · rw [if_pos hd2]
        have hvr : v ∈ toList r := by
          rcases List.mem_append.mp hv with hv | hv
          · obtain ⟨_, _, g3⟩ := Bounded_mem hbl v hv
            exact absurd (lt_of_lt_of_le hc.2 (le_trans (le_trans g3 h2) hd2))
              (lt_irrefl _)
          · rcases List.mem_cons.mp hv with rfl | hv
            · exact absurd hc.2 (not_lt.mpr hd2)
            · exact hv
        rw [ihr hbr hvr hc]
      · rw [if_neg hd2]

/-- With fuel exceeding the tree size, the fuel-indexed insert computes
exactly the recursive insert (in particular it never runs out of fuel). -/
theorem insertFuel_eq {x : Node} :
    ∀ (t : MapTree) (fuel : Nat), size t < fuel →
    insertFuel fuel x t = some (map_tree_insert_node x t) := by
  intro t
  induction t with
  | nil =>
    intro fuel hf
    obtain ⟨k, rfl⟩ : ∃ k, fuel = k + 1 := ⟨fuel - 1, by omega⟩
    rfl
  | node v l r ihl ihr =>
    intro fuel hf
    obtain ⟨k, rfl⟩ : ∃ k, fuel = k + 1 := ⟨fuel - 1, by omega⟩
    rw [size_node] at hf
    rw [insertFuel, map_tree_insert_node]
    by_cases h1 : x.div_start < v.div_start
    · rw [if_pos h1, if_pos h1, ihl k (by omega)]
      cases map_tree_insert_node x l with
      | none => rfl
      | some l' =>
        dsimp only
        split <;> rfl
    · rw [if_neg h1, if_neg h1]
      by_cases h2 : v.div_end ≤ x.div_start
      · rw [if_pos h2, if_pos h2, ihr k (by omega)]
        cases map_tree_insert_node x r with
        | none => rfl
        | some r' =>
          dsimp only
          split <;> rfl
      · rw [if_neg h2, if_neg h2]

/-- With fuel exceeding the tree size, the fuel-indexed delete computes
exactly the recursive delete (in particular it never runs out of fuel). -/
theorem deleteFuel_eq {d : Nat} :
    ∀ (N : Nat) (t : MapTree), size t ≤ N → ∀ (fuel : Nat), size t < fuel →
    deleteFuel fuel d t = some (map_tree_delete_node d t) := by
  intro N
  induction N with
  | zero =>
    intro t hst fuel hf
    cases t with
    | nil =>
      obtain ⟨k, rfl⟩ : ∃ k, fuel = k + 1 := ⟨fuel - 1, by omega⟩
      rw [delete_nil_eq]
      rfl
    | node v l r => rw [size_node] at hst; omega
  | succ N ih =>
    intro t hst fuel hf
    cases t with
    | nil =>
      obtain ⟨k, rfl⟩ : ∃ k, fuel = k + 1 := ⟨fuel - 1, by omega⟩
      rw [delete_nil_eq]
      rfl
    | node v l r =>
      obtain ⟨k, rfl⟩ : ∃ k, fuel = k + 1 := ⟨fuel - 1, by omega⟩
      rw [size_node] at hst hf
      rw [deleteFuel.eq_def]
      dsimp only
      by_cases h1 : d < v.div_start
      · rw [if_pos h1, delete_desc_left h1,
          ih l (by omega) k (by omega)]
        rfl
      · rw [if_neg h1]
        by_cases h2 : v.div_end ≤ d
        · rw [if_pos h2, delete_desc_right (not_lt.mp h1) h2,
            ih r (by omega) k (by omega)]
          rfl
        · rw [if_neg h2]
          cases l with
          | nil =>
            rw [delete_found_left_nil (not_lt.mp h1) (not_le.mp h2)]
          | node w a b =>
            cases r with
            | nil =>
              rw [delete_found_right_nil (not_lt.mp h1) (not_le.mp h2)]
            | node u c e =>
              dsimp only
              by_cases hp : u.prio < w.prio
              · rw [if_pos hp, delete_found_rot_left (not_lt.mp h1) (not_le.mp h2) hp]
                have hsub : size (node { v with prio := 0 } b (node u c e)) ≤ N := by
                  simp only [size_node] at hst ⊢
                  omega
                have hfsub : size (node { v with prio := 0 } b (node u c e)) < k := by
                  simp only [size_node] at hf ⊢
                  omega
                rw [ih _ hsub k hfsub]
                rfl
              · rw [if_neg hp, delete_found_rot_right (not_lt.mp h1) (not_le.mp h2) hp]
                have hsub : size (node { v with prio := 0 } (node w a b) c) ≤ N := by
                  simp only [size_node] at hst ⊢
                  omega
                have hfsub : size (node { v with prio := 0 } (node w a b) c) < k := by
                  simp only [size_node] at hf ⊢
                  omega
                rw [ih _ hsub k hfsub]
                rfl

/-- Evaluation helper: a concrete run of the fuel-indexed delete
determines the recursive delete's result. -/
theorem delete_eval {d : Nat} {t : MapTree} {res : Option (Node × MapTree)}
    (h : deleteFuel (size t + 1) d t = some res) :
    map_tree_delete_node d t = res := by
  have h2 := @deleteFuel_eq d (size t) t (le_refl _) (size t + 1) (by omega)
  rw [h] at h2
  injection h2 with h2
  exact h2.symm

/-- Unfolding helper for `rando_map_add`: a successful add inserts the
populated node into the tree and performs the arena effects (the
`alloc_node` call followed by the extra `current_page.next++`). -/
theorem rando_map_add_spec {npp ds dz us uv nf fs p : Nat} {st st' : RandoMapState}
    (h : rando_map_add npp ds dz us uv nf fs p st = some st') :
    map_tree_insert_node ⟨ds, ds + dz, us, uv, nf, fs, p⟩ st.tree = some st'.tree ∧
    st'.arena = { (alloc_node npp st.arena).2 with
                  next := (alloc_node npp st.arena).2.next + 1 } := by
  simp only [rando_map_add] at h
  cases hins : map_tree_insert_node ⟨ds, ds + dz, us, uv, nf, fs, p⟩ st.tree with
  | none => rw [hins] at h; cases h
  | some t' =>
    rw [hins] at h
    injection h with h
    subst h
    exact ⟨rfl, rfl⟩

/-- Unfolding helper for `rando_map_delete`: a successful delete removes
via the tree delete and pushes the zeroed node onto the free list. -/
theorem rando_map_delete_spec {d : Nat} {st st' : RandoMapState}
    (h : rando_map_delete d st = some st') :
    ∃ n, map_tree_delete_node d st.tree = some (n, st'.tree) ∧
      st'.arena = { st.arena with freeList := zeroNode :: st.arena.freeList } := by
  simp only [rando_map_delete] at h
  cases hdel : map_tree_delete_node d st.tree with
  | none => rw [hdel] at h; cases h
  | some p =>
    obtain ⟨n, t'⟩ := p
    rw [hdel] at h
    injection h with h
    subst h
    exact ⟨n, rfl, rfl⟩

theorem rando_map_delete_none {d : Nat} {st : RandoMapState} :
    rando_map_delete d st = none ↔ map_tree_delete_node d st.tree = none := by
  simp only [rando_map_delete]
  cases map_tree_delete_node d st.tree with
  | none => simp
  | some p => simp

/-! ### Claims C1, C3, C10 -/

/-- Claim C1 as stated is false: starting from the empty tree, inserting
the interval `[10, 20)` and then `[5, 15)` both complete without the
fatal path, yet the two live intervals overlap (address `12` lies in
both).  The second insert intersects an existing live interval but is
linked into the tree instead of being rejected. -/
theorem C1_overlap_not_rejected :
    map_tree_insert_node ⟨10, 20, 0, 0, 0, 0, 7⟩ nil
        = some (node ⟨10, 20, 0, 0, 0, 0, 7⟩ nil nil) ∧
    map_tree_insert_node ⟨5, 15, 0, 0, 0, 0, 3⟩ (node ⟨10, 20, 0, 0, 0, 0, 7⟩ nil nil)
        = some (node ⟨10, 20, 0, 0, 0, 0, 7⟩ (node ⟨5, 15, 0, 0, 0, 0, 3⟩ nil nil) nil) ∧
    (⟨10, 20, 0, 0, 0, 0, 7⟩ : Node) ∈
      toList (node ⟨10, 20, 0, 0, 0, 0, 7⟩ (node ⟨5, 15, 0, 0, 0, 0, 3⟩ nil nil) nil) ∧
    (⟨5, 15, 0, 0, 0, 0, 3⟩ : Node) ∈
      toList (node ⟨10, 20, 0, 0, 0, 0, 7⟩ (node ⟨5, 15, 0, 0, 0, 0, 3⟩ nil nil) nil) ∧
    contains ⟨10, 20, 0, 0, 0, 0, 7⟩ 12 ∧ contains ⟨5, 15, 0, 0, 0, 0, 3⟩ 12 := by
  decide

/-- Claim C1 (amended): on a tree satisfying the interval-search
invariant, an insert is rejected via the fatal path exactly when the new
node's `div_start` lies inside an existing live interval; overlap that
involves only the new interval's end is not detected. -/
theorem C1_fatal_iff_start_inside {x : Node} {t : MapTree} {lo hi : Nat}
    (hb : Bounded lo hi t) :
    map_tree_insert_node x t = none ↔
      ∃ v ∈ toList t, contains v x.div_start := by
  constructor
  · exact insert_none_mem
  · rintro ⟨v, hv, hc⟩
    exact insert_none_of_contains hb hv hc

theorem C1_fatal_iff_start_inside_witness :
    Bounded 0 100 (node ⟨10, 20, 0, 0, 0, 0, 7⟩ nil nil) ∧
    (map_tree_insert_node ⟨15, 25, 0, 0, 0, 0, 3⟩ (node ⟨10, 20, 0, 0, 0, 0, 7⟩ nil nil)
        = none ↔
      ∃ v ∈ toList (node ⟨10, 20, 0, 0, 0, 0, 7⟩ nil nil),
        contains v (15 : Nat)) :=
  ⟨by decide,
   @C1_fatal_iff_start_inside ⟨15, 25, 0, 0, 0, 0, 3⟩
     (node ⟨10, 20, 0, 0, 0, 0, 7⟩ nil nil) 0 100 (by decide)⟩

/-- Claim C3 as stated is false: the singleton tree holding the
zero-length interval `[10, 10)` satisfies both treap invariants, and
inserting `[10, 20)` into it completes normally, but the resulting
in-order `div_start` sequence `10, 10` is no longer strictly
ascending. -/
theorem C3_insert_breaks_asc :
    AscStarts (node ⟨10, 10, 0, 0, 0, 0, 5⟩ nil nil) ∧
    IsHeap (node ⟨10, 10, 0, 0, 0, 0, 5⟩ nil nil) ∧
    map_tree_insert_node ⟨10, 20, 0, 0, 0, 0, 1⟩ (node ⟨10, 10, 0, 0, 0, 0, 5⟩ nil nil)
      = some (node ⟨10, 10, 0, 0, 0, 0, 5⟩ nil (node ⟨10, 20, 0, 0, 0, 0, 1⟩ nil nil)) ∧
    ¬ AscStarts
        (node ⟨10, 10, 0, 0, 0, 0, 5⟩ nil (node ⟨10, 20, 0, 0, 0, 0, 1⟩ nil nil)) := by
  decide

/-- Claim C3 (amended): on trees all of whose live intervals have
positive length, a completing insert preserves both treap invariants;
a completing delete preserves them on every tree satisfying them. -/
theorem C3_invariants_preserved :
    (∀ (x : Node) (t t' : MapTree), PosLen t → AscStarts t → IsHeap t →
      map_tree_insert_node x t = some t' → AscStarts t' ∧ IsHeap t') ∧
    (∀ (d : Nat) (t : MapTree) (n : Node) (t' : MapTree), AscStarts t → IsHeap t →
      map_tree_delete_node d t = some (n, t') → AscStarts t' ∧ IsHeap t') := by
  constructor
  · intro x t t' hp ha hh h
    exact ⟨insert_asc hp ha h, (insert_heap hh h).1⟩
  · intro d t n t' ha hh h
    obtain ⟨v, _, _, _, _, hsub⟩ := delete_spec h
    exact ⟨List.Pairwise.sublist hsub ha, (delete_heap hh h).1⟩

theorem C3_invariants_preserved_witness :
    (PosLen (node ⟨10, 20, 0, 0, 0, 0, 7⟩ nil nil) ∧
     AscStarts (node ⟨10, 20, 0, 0, 0, 0, 7⟩ nil nil) ∧
     IsHeap (node ⟨10, 20, 0, 0, 0, 0, 7⟩ nil nil) ∧
     map_tree_insert_node ⟨30, 40, 0, 0, 0, 0, 9⟩ (node ⟨10, 20, 0, 0, 0, 0, 7⟩ nil nil)
       = some (node ⟨30, 40, 0, 0, 0, 0, 9⟩ (node ⟨10, 20, 0, 0, 0, 0, 7⟩ nil nil) nil) ∧
     (AscStarts (node ⟨30, 40, 0, 0, 0, 0, 9⟩ (node ⟨10, 20, 0, 0, 0, 0, 7⟩ nil nil) nil) ∧
      IsHeap (node ⟨30, 40, 0, 0, 0, 0, 9⟩ (node ⟨10, 20, 0, 0, 0, 0, 7⟩ nil nil) nil))) ∧
    (AscStarts (node ⟨30, 40, 0, 0, 0, 0, 9⟩ (node ⟨10, 20, 0, 0, 0, 0, 7⟩ nil nil) nil) ∧
     IsHeap (node ⟨30, 40, 0, 0, 0, 0, 9⟩ (node ⟨10, 20, 0, 0, 0, 0, 7⟩ nil nil) nil) ∧
     map_tree_delete_node 10
         (node ⟨30, 40, 0, 0, 0, 0, 9⟩ (node ⟨10, 20, 0, 0, 0, 0, 7⟩ nil nil) nil)
       = some (⟨10, 20, 0, 0, 0, 0, 0⟩, node ⟨30, 40, 0, 0, 0, 0, 9⟩ nil nil) ∧
     (AscStarts (node ⟨30, 40, 0, 0, 0, 0, 9⟩ nil nil) ∧
      IsHeap (node ⟨30, 40, 0, 0, 0, 0, 9⟩ nil nil))) := by
  have hdel : map_tree_delete_node 10
      (node ⟨30, 40, 0, 0, 0, 0, 9⟩ (node ⟨10, 20, 0, 0, 0, 0, 7⟩ nil nil) nil)
      = some (⟨10, 20, 0, 0, 0, 0, 0⟩, node ⟨30, 40, 0, 0, 0, 0, 9⟩ nil nil) :=
    delete_eval rfl
  refine ⟨⟨by decide, by decide, by decide, rfl, ?_⟩,
          ⟨by decide, by decide, hdel, ?_⟩⟩
  · exact C3_invariants_preserved.1 ⟨30, 40, 0, 0, 0, 0, 9⟩
      (node ⟨10, 20, 0, 0, 0, 0, 7⟩ nil nil)
      (node ⟨30, 40, 0, 0, 0, 0, 9⟩ (node ⟨10, 20, 0, 0, 0, 0, 7⟩ nil nil) nil)
      (by decide) (by decide) (by decide) rfl
  · exact C3_invariants_preserved.2 10
      (node ⟨30, 40, 0, 0, 0, 0, 9⟩ (node ⟨10, 20, 0, 0, 0, 0, 7⟩ nil nil) nil)
      ⟨10, 20, 0, 0, 0, 0, 0⟩ (node ⟨30, 40, 0, 0, 0, 0, 9⟩ nil nil)
      (by decide) (by decide) hdel

/-- Claim C10 as stated is false in its "every subsequent
`rando_map_delete(div_start)` reaches the fatal path" part: register
`[10, 10)` (size 0), then `[10, 20)` — both complete — and
`rando_map_delete 10` then completes without the fatal path, detaching
the `[10, 20)` node while the zero-length node stays. -/
theorem C10_delete_not_always_fatal :
    rando_map_add 4 10 0 0 0 0 0 5 ⟨nil, ⟨[], 1, 3, 1⟩⟩
      = some ⟨node ⟨10, 10, 0, 0, 0, 0, 5⟩ nil nil, ⟨[], 3, 3, 1⟩⟩ ∧
    rando_map_add 4 10 10 0 0 0 0 1
        ⟨node ⟨10, 10, 0, 0, 0, 0, 5⟩ nil nil, ⟨[], 3, 3, 1⟩⟩
      = some ⟨node ⟨10, 10, 0, 0, 0, 0, 5⟩ nil (node ⟨10, 20, 0, 0, 0, 0, 1⟩ nil nil),
              ⟨[], 5, 3, 1⟩⟩ ∧
    rando_map_delete 10
        ⟨node ⟨10, 10, 0, 0, 0, 0, 5⟩ nil (node ⟨10, 20, 0, 0, 0, 0, 1⟩ nil nil),
         ⟨[], 5, 3, 1⟩⟩
      = some ⟨node ⟨10, 10, 0, 0, 0, 0, 5⟩ nil nil,
              ⟨[zeroNode], 5, 3, 1⟩⟩ := by
  have hdel : map_tree_delete_node 10
      (node ⟨10, 10, 0, 0, 0, 0, 5⟩ nil (node ⟨10, 20, 0, 0, 0, 0, 1⟩ nil nil))
      = some (⟨10, 20, 0, 0, 0, 0, 0⟩, node ⟨10, 10, 0, 0, 0, 0, 5⟩ nil nil) :=
    delete_eval rfl
  refine ⟨by decide, by decide, ?_⟩
  simp only [rando_map_delete, hdel]

/-- Claim C10 (amended): a `rando_map_add` with `div_size = 0` that
completes links a node with `div_start = div_end` into the tree; no
address satisfies that node's containment test; the node detached by any
successful delete always has `div_start < div_end`, so it is never the
zero-length node, whose multiplicity among the live nodes is unchanged —
a zero-length registration can never be removed (the delete reaches the
fatal path only when no other live interval contains the address). -/
theorem C10_zero_length_never_removed :
    (∀ (npp A O V nf F p : Nat) (st st' : RandoMapState),
      rando_map_add npp A 0 O V nf F p st = some st' →
      (⟨A, A, O, V, nf, F, p⟩ : Node) ∈ toList st'.tree) ∧
    (∀ (v : Node), v.div_start = v.div_end → ∀ addr, ¬ contains v addr) ∧
    (∀ (d : Nat) (t : MapTree) (n : Node) (t' : MapTree),
      map_tree_delete_node d t = some (n, t') → n.div_start < n.div_end) ∧
    (∀ (z : Node), z.div_start = z.div_end →
      ∀ (d : Nat) (t : MapTree) (n : Node) (t' : MapTree),
        map_tree_delete_node d t = some (n, t') →
        (toList t').count z = (toList t).count z) := by
  refine ⟨?_, ?_, ?_, ?_⟩
  · intro npp A O V nf F p st st' h
    obtain ⟨hins, _⟩ := rando_map_add_spec h
    exact (insert_perm hins).mem_iff.mpr (List.mem_cons_self _ _)
  · intro v h addr hc
    obtain ⟨h1, h2⟩ := hc
    omega
  · intro d t n t' h
    obtain ⟨v, _, hc, rfl, _, _⟩ := delete_spec h
    exact lt_of_le_of_lt hc.1 hc.2
  · intro z hz d t n t' h
    obtain ⟨v, _, hc, _, hperm, _⟩ := delete_spec h
    have hvz : v ≠ z := by
      intro hvz
      subst hvz
      have := lt_of_le_of_lt hc.1 hc.2
      omega
    rw [hperm.count_eq z, List.count_cons]
    have hb : (v == z) = false := beq_eq_false_iff_ne.mpr hvz
    rw [hb]
    simp

theorem C10_zero_length_never_removed_witness :
    (rando_map_add 4 10 0 0 0 0 0 5 ⟨nil, ⟨[], 1, 3, 1⟩⟩
        = some ⟨node ⟨10, 10, 0, 0, 0, 0, 5⟩ nil nil, ⟨[], 3, 3, 1⟩⟩ ∧
     (⟨10, 10, 0, 0, 0, 0, 5⟩ : Node) ∈ toList (node ⟨10, 10, 0, 0, 0, 0, 5⟩ nil nil)) ∧
    (¬ contains ⟨10, 10, 0, 0, 0, 0, 5⟩ 10) ∧
    ((10 : Nat) < 20) ∧
    ((toList (node ⟨10, 10, 0, 0, 0, 0, 5⟩ nil nil)).count ⟨10, 10, 0, 0, 0, 0, 5⟩
      = (toList (node ⟨10, 10, 0, 0, 0, 0, 5⟩ nil
          (node ⟨10, 20, 0, 0, 0, 0, 1⟩ nil nil))).count ⟨10, 10, 0, 0, 0, 0, 5⟩) := by
  have hdel : map_tree_delete_node 10
      (node ⟨10, 10, 0, 0, 0, 0, 5⟩ nil (node ⟨10, 20, 0, 0, 0, 0, 1⟩ nil nil))
      = some (⟨10, 20, 0, 0, 0, 0, 0⟩, node ⟨10, 10, 0, 0, 0, 0, 5⟩ nil nil) :=
    delete_eval rfl
  refine ⟨⟨by decide, ?_⟩, ?_, ?_, ?_⟩
  · exact C10_zero_length_never_removed.1 4 10 0 0 0 0 5
      ⟨nil, ⟨[], 1, 3, 1⟩⟩ ⟨node ⟨10, 10, 0, 0, 0, 0, 5⟩ nil nil, ⟨[], 3, 3, 1⟩⟩
      (by decide)
  · exact C10_zero_length_never_removed.2.1 ⟨10, 10, 0, 0, 0, 0, 5⟩ rfl 10
  · exact C10_zero_length_never_removed.2.2.1 10
      (node ⟨10, 10, 0, 0, 0, 0, 5⟩ nil (node ⟨10, 20, 0, 0, 0, 0, 1⟩ nil nil))
      ⟨10, 20, 0, 0, 0, 0, 0⟩ (node ⟨10, 10, 0, 0, 0, 0, 5⟩ nil nil) hdel
  · exact C10_zero_length_never_removed.2.2.2 ⟨10, 10, 0, 0, 0, 0, 5⟩ rfl 10
      (node ⟨10, 10, 0, 0, 0, 0, 5⟩ nil (node ⟨10, 20, 0, 0, 0, 0, 1⟩ nil nil))
      ⟨10, 20, 0, 0, 0, 0, 0⟩ (node ⟨10, 10, 0, 0, 0, 0, 5⟩ nil nil) hdel

/-- Claim C4: under the interval-search invariant, `rando_map_delete`
hits the fatal path iff no live node's interval contains the address;
otherwise it detaches exactly the (unique) containing node, leaves every
other live node intact, and pushes the all-zero node onto the head of
the free list, the rest of the arena unchanged. -/
theorem C4_delete_contract {N d : Nat} {st : RandoMapState}
    (hb : Bounded 0 N st.tree) :
    (rando_map_delete d st = none ↔ ∀ v ∈ toList st.tree, ¬ contains v d) ∧
    (∀ st', rando_map_delete d st = some st' →
      ∃ v ∈ toList st.tree, contains v d ∧
        (∀ w ∈ toList st.tree, contains w d → w = v) ∧
        (toList st.tree).Perm (v :: toList st'.tree) ∧
        st'.arena = { st.arena with freeList := zeroNode :: st.arena.freeList }) := by
  constructor
  · rw [rando_map_delete_none]
    constructor
    · intro h v hv hc
      have hs := delete_isSome_of_contains hb hv hc
      rw [h] at hs
      simp [Option.isSome] at hs
    · exact delete_none_of_not_contains
  · intro st' h
    obtain ⟨n, hdel, harena⟩ := rando_map_delete_spec h
    obtain ⟨v, hv, hc, hn, hperm, _⟩ := delete_spec hdel
    refine ⟨v, hv, hc, ?_, hperm, harena⟩
    intro w hw hcw
    have h1 := lookup_correct hb hv hc
    have h2 := lookup_correct hb hw hcw
    rw [h1] at h2
    injection h2 with h2
    exact h2.symm

theorem C4_delete_contract_witness :
    Bounded 0 100 (node ⟨10, 20, 0, 0, 0, 0, 7⟩ nil nil) ∧
    ((rando_map_delete 15 ⟨node ⟨10, 20, 0, 0, 0, 0, 7⟩ nil nil, ⟨[], 2, 3, 1⟩⟩ = none ↔
        ∀ v ∈ toList (node ⟨10, 20, 0, 0, 0, 0, 7⟩ nil nil), ¬ contains v 15) ∧
     (∀ st', rando_map_delete 15 ⟨node ⟨10, 20, 0, 0, 0, 0, 7⟩ nil nil, ⟨[], 2, 3, 1⟩⟩
          = some st' →
       ∃ v ∈ toList (node ⟨10, 20, 0, 0, 0, 0, 7⟩ nil nil), contains v 15 ∧
         (∀ w ∈ toList (node ⟨10, 20, 0, 0, 0, 0, 7⟩ nil nil), contains w 15 → w = v) ∧
         (toList (node ⟨10, 20, 0, 0, 0, 0, 7⟩ nil nil)).Perm (v :: toList st'.tree) ∧
         st'.arena = { freeList := [zeroNode], next := 2, limit := 3, pages := 1 })) :=
  ⟨by decide,
   @C4_delete_contract 100 15 ⟨node ⟨10, 20, 0, 0, 0, 0, 7⟩ nil nil, ⟨[], 2, 3, 1⟩⟩
     (by decide)⟩

/-- Claim C5: inserting a positive-length interval `[A, A+len)` that is
disjoint from all live intervals of an invariant-satisfying registry
succeeds, the tree then holds a node carrying exactly the registered
fields, and a lookup of any address in `[A, A+len)` descends to that
node, recovering all fields unchanged. -/
theorem C5_roundtrip {npp N A len O V nf F p : Nat} {st : RandoMapState}
    (hb : Bounded 0 N st.tree) (hlen : 0 < len) (hhi : A + len ≤ N)
    (hdisj : ∀ v ∈ toList st.tree, A + len ≤ v.div_start ∨ v.div_end ≤ A) :
    ∃ st', rando_map_add npp A len O V nf F p st = some st' ∧
      (⟨A, A + len, O, V, nf, F, p⟩ : Node) ∈ toList st'.tree ∧
      ∀ addr, A ≤ addr → addr < A + len →
        map_tree_lookup addr st'.tree = some ⟨A, A + len, O, V, nf, F, p⟩ := by
  obtain ⟨t', hins, hb'⟩ := @insert_bounded ⟨A, A + len, O, V, nf, F, p⟩ st.tree 0 N
    hb (Nat.zero_le _) (by show A < A + len; omega) hhi hdisj
  have hmem : (⟨A, A + len, O, V, nf, F, p⟩ : Node) ∈ toList t' :=
    (insert_perm hins).mem_iff.mpr (List.mem_cons_self _ _)
  refine ⟨⟨t', { (alloc_node npp st.arena).2 with
                 next := (alloc_node npp st.arena).2.next + 1 }⟩, ?_, hmem, ?_⟩
  · simp only [rando_map_add]
    rw [hins]
  · intro addr h1 h2
    exact lookup_correct hb' hmem ⟨h1, h2⟩

theorem C5_roundtrip_witness :
    Bounded 0 100 nil ∧ (0 : Nat) < 5 ∧ (10 : Nat) + 5 ≤ 100 ∧
    (∀ v ∈ toList nil, (10 : Nat) + 5 ≤ v.div_start ∨ v.div_end ≤ 10) ∧
    (∃ st', rando_map_add 4 10 5 90 80 2 70 3 ⟨nil, ⟨[], 1, 3, 1⟩⟩ = some st' ∧
      (⟨10, 10 + 5, 90, 80, 2, 70, 3⟩ : Node) ∈ toList st'.tree ∧
      ∀ addr, 10 ≤ addr → addr < 10 + 5 →
        map_tree_lookup addr st'.tree = some ⟨10, 10 + 5, 90, 80, 2, 70, 3⟩) :=
  ⟨by decide, by decide, by decide, by decide,
   @C5_roundtrip 4 100 10 5 90 80 2 70 3 ⟨nil, ⟨[], 1, 3, 1⟩⟩
     (by decide) (by decide) (by decide) (by decide)⟩

/-- Claim C6 fails on the code: `rando_map_add` executes a second
`current_page.next++` after `alloc_node` has already advanced it, so a
bump-path insert consumes two slots (`next` goes from 0 to 2), and a
free-list-path insert pops the head yet still advances the bump pointer
(`next` goes from 0 to 1 although the node came from the free list). -/
theorem C6_arena_double_advance :
    (rando_map_add 4 10 5 0 0 0 0 0 ⟨nil, ⟨[], 0, 3, 1⟩⟩).map (fun st => st.arena)
      = some ⟨[], 2, 3, 1⟩ ∧
    (rando_map_add 4 10 5 0 0 0 0 0 ⟨nil, ⟨[zeroNode], 0, 3, 1⟩⟩).map
        (fun st => st.arena)
      = some ⟨[], 1, 3, 1⟩ := by
  decide

/-- Claim C7 as stated is false: the priority is drawn by
`arc4random_uniform(UINT32_MAX)`, whose values are strictly below
`UINT32_MAX`, so `2^32 - 1` itself is not a possible priority. -/
theorem C7_max_prio_impossible : UINT32_MAX ∉ rando_map_prio_support := by
  simp [rando_map_prio_support, arc4random_uniform_support, UINT32_MAX,
    Finset.mem_range]

/-- Claim C7 (amended): the priority assigned at node creation is drawn
uniformly from `[0, 2^32 - 2]`: every value strictly below `2^32 - 1` is
possible, and `2^32 - 1` is not. -/
theorem C7_prio_support_range (v : Nat) :
    v ∈ rando_map_prio_support ↔ v < 2 ^ 32 - 1 := by
  simp [rando_map_prio_support, arc4random_uniform_support, UINT32_MAX,
    Finset.mem_range]

/-- Claim C8: on every finite tree satisfying the BST-order invariant,
both tree operations terminate: the fuel-indexed transcriptions complete
within `size t + 1` nested calls — never running out of fuel — and
return exactly the value of the total recursive functions (normal result
or the fatal path). -/
theorem C8_terminates {t : MapTree} (hasc : AscStarts t) (x : Node) (d : Nat) :
    insertFuel (size t + 1) x t = some (map_tree_insert_node x t) ∧
    deleteFuel (size t + 1) d t = some (map_tree_delete_node d t) :=
  ⟨insertFuel_eq t (size t + 1) (by omega),
   deleteFuel_eq (size t) t (le_refl _) (size t + 1) (by omega)⟩

theorem C8_terminates_witness :
    AscStarts (node ⟨10, 20, 0, 0, 0, 0, 7⟩ nil nil) ∧
    (insertFuel (size (node ⟨10, 20, 0, 0, 0, 0, 7⟩ nil nil) + 1)
        ⟨30, 40, 0, 0, 0, 0, 1⟩ (node ⟨10, 20, 0, 0, 0, 0, 7⟩ nil nil)
      = some (map_tree_insert_node ⟨30, 40, 0, 0, 0, 0, 1⟩
          (node ⟨10, 20, 0, 0, 0, 0, 7⟩ nil nil)) ∧
     deleteFuel (size (node ⟨10, 20, 0, 0, 0, 0, 7⟩ nil nil) + 1) 15
        (node ⟨10, 20, 0, 0, 0, 0, 7⟩ nil nil)
      = some (map_tree_delete_node 15 (node ⟨10, 20, 0, 0, 0, 0, 7⟩ nil nil))) :=
  ⟨by decide, C8_terminates (by decide) ⟨30, 40, 0, 0, 0, 0, 1⟩ 15⟩

/-! ### The sampler: no modulo bias (claim C2) -/

/-- The wrapped `-range % range` equals `2^W mod range`. -/
theorem addr_min_eq {W range : Nat} (h0 : 0 < range) (hlt : range < 2 ^ W) :
    addr_min W range = 2 ^ W % range := by
  unfold addr_min
  rw [Nat.mod_eq_of_lt hlt,
    Nat.mod_eq_of_lt (by omega : 2 ^ W - range < 2 ^ W)]
  conv_rhs => rw [← Nat.sub_add_cancel (le_of_lt hlt)]
  rw [Nat.add_mod_right]

/-- Any window of `n` consecutive naturals contains exactly one value in
each residue class modulo `n`. -/
theorem card_filter_mod_window (n r : Nat) (hn : 0 < n) (hr : r < n) (c : Nat) :
    ((Finset.Ico c (c + n)).filter (fun v => v % n = r)).card = 1 := by
  obtain ⟨m, k, hc, hkn⟩ : ∃ m k, c = n * m + k ∧ k < n :=
    ⟨c / n, c % n, (Nat.div_add_mod c n).symm, Nat.mod_lt _ hn⟩
  rw [Finset.card_eq_one]
  refine ⟨if k ≤ r then n * m + r else n * (m + 1) + r, ?_⟩
  ext x
  rw [Finset.mem_filter, Finset.mem_Ico, Finset.mem_singleton]
  constructor
  · rintro ⟨⟨hx1, hx2⟩, hxr⟩
    obtain ⟨q, hq⟩ : ∃ q, x = n * q + r := by
      refine ⟨x / n, ?_⟩
      conv_lhs => rw [← Nat.div_add_mod x n]
      rw [hxr]
    subst hq
    subst hc
    have hmul2 : n * (m + 1) = n * m + n := Nat.mul_succ n m
    have hqm : q = m ∨ q = m + 1 := by
      have hmul1 : n * (q + 1) = n * q + n := Nat.mul_succ n q
      have hmul3 : n * (m + 2) = n * m + n + n := by
        rw [show m + 2 = (m + 1) + 1 from rfl, Nat.mul_succ, hmul2]
      rcases Nat.lt_trichotomy q m with h | h | h
      · have h1 : n * (q + 1) ≤ n * m := Nat.mul_le_mul_left n h
        omega
      · exact Or.inl h
      · rcases Nat.lt_or_ge q (m + 2) with h2 | h2
        · right; omega
        · have h1 : n * (m + 2) ≤ n * q := Nat.mul_le_mul_left n h2
          omega
    rcases hqm with rfl | rfl
    · rw [if_pos (by omega)]
    · rw [if_neg (by omega)]
  · intro hx
    have hmul2 : n * (m + 1) = n * m + n := Nat.mul_succ n m
    have hmod1 : (n * m + r) % n = r := by
      rw [Nat.mul_add_mod]
      exact Nat.mod_eq_of_lt hr
    have hmod2 : (n * (m + 1) + r) % n = r := by
      rw [Nat.mul_add_mod]
      exact Nat.mod_eq_of_lt hr
    subst hc
    by_cases hkr : k ≤ r
    · rw [if_pos hkr] at hx
      subst hx
      exact ⟨⟨by omega, by omega⟩, hmod1⟩
    · rw [if_neg hkr] at hx
      subst hx
      refine ⟨⟨?_, ?_⟩, hmod2⟩
      · rw [hmul2]; omega
      · rw [hmul2]; omega

/-- A span of `q` windows of length `n` contains exactly `q` values in
each residue class modulo `n`. -/
theorem card_filter_mod_blocks (n r : Nat) (hn : 0 < n) (hr : r < n) :
    ∀ (q a : Nat),
    ((Finset.Ico a (a + q * n)).filter (fun v => v % n = r)).card = q := by
  intro q
  induction q with
  | zero => intro a; simp
  | succ q ih =>
    intro a
    have hsplit : Finset.Ico a (a + (q + 1) * n)
        = Finset.Ico a (a + q * n) ∪ Finset.Ico (a + q * n) (a + (q + 1) * n) := by
      rw [Finset.Ico_union_Ico_eq_Ico (Nat.le_add_right a (q * n))
        (by rw [Nat.succ_mul]; omega)]
    rw [hsplit, Finset.filter_union,
      Finset.card_union_of_disjoint
        (Finset.disjoint_filter_filter (Finset.Ico_disjoint_Ico_consecutive a _ _)),
      ih a]
    have he : a + (q + 1) * n = (a + q * n) + n := by
      rw [Nat.succ_mul]; omega
    rw [he, card_filter_mod_window n r hn hr (a + q * n)]

/-- Claim C2: `min` as computed by `get_random_address` equals
`2^W mod range`; every accepted draw maps into `[LOW, HIGH)`; and each
address in `[LOW, HIGH)` is hit by exactly `(2^W - min) / range`
accepted draws — the accepted values split into complete residue
classes, so every output address is equally probable. -/
theorem C2_sampler_unbiased {W LOW HIGH : Nat}
    (h1 : LOW < HIGH) (h2 : HIGH - LOW < 2 ^ W) :
    addr_min W (HIGH - LOW) = 2 ^ W % (HIGH - LOW) ∧
    (∀ v, addr_min W (HIGH - LOW) ≤ v → v < 2 ^ W →
      LOW ≤ get_random_address LOW HIGH v ∧ get_random_address LOW HIGH v < HIGH) ∧
    (∀ a, LOW ≤ a → a < HIGH →
      ((acceptedDraws W LOW HIGH).filter
          (fun v => get_random_address LOW HIGH v = a)).card
        = (2 ^ W - addr_min W (HIGH - LOW)) / (HIGH - LOW)) := by
  have h0 : 0 < HIGH - LOW := by omega
  have hmin := addr_min_eq h0 h2
  refine ⟨hmin, ?_, ?_⟩
  · intro v _ _
    unfold get_random_address
    have hvm : v % (HIGH - LOW) < HIGH - LOW := Nat.mod_lt _ h0
    omega
  · intro a ha1 ha2
    have hcond : ∀ v, (get_random_address LOW HIGH v = a) ↔
        v % (HIGH - LOW) = a - LOW := by
      intro v
      unfold get_random_address
      omega
    unfold acceptedDraws
    rw [Finset.filter_congr fun v _ => by rw [hcond v]]
    rw [hmin]
    have hq : 2 ^ W = 2 ^ W % (HIGH - LOW) + (2 ^ W / (HIGH - LOW)) * (HIGH - LOW) :=
      (Nat.mod_add_div' (2 ^ W) (HIGH - LOW)).symm
    have hIco : Finset.Ico (2 ^ W % (HIGH - LOW)) (2 ^ W)
        = Finset.Ico (2 ^ W % (HIGH - LOW))
            (2 ^ W % (HIGH - LOW) + (2 ^ W / (HIGH - LOW)) * (HIGH - LOW)) := by
      rw [← hq]
    rw [hIco, card_filter_mod_blocks (HIGH - LOW) (a - LOW) h0 (by omega)
      (2 ^ W / (HIGH - LOW)) (2 ^ W % (HIGH - LOW))]
    have hsub : 2 ^ W - 2 ^ W % (HIGH - LOW)
        = (2 ^ W / (HIGH - LOW)) * (HIGH - LOW) := by omega
    rw [hsub, Nat.mul_div_cancel _ h0]

theorem C2_sampler_unbiased_witness :
    ((RAND_ADDR_LOW_arm < RAND_ADDR_HIGH_arm) ∧
     (RAND_ADDR_HIGH_arm - RAND_ADDR_LOW_arm < 2 ^ 32)) ∧
    (addr_min 32 (RAND_ADDR_HIGH_arm - RAND_ADDR_LOW_arm)
        = 2 ^ 32 % (RAND_ADDR_HIGH_arm - RAND_ADDR_LOW_arm) ∧
     (∀ v, addr_min 32 (RAND_ADDR_HIGH_arm - RAND_ADDR_LOW_arm) ≤ v → v < 2 ^ 32 →
       RAND_ADDR_LOW_arm ≤ get_random_address RAND_ADDR_LOW_arm RAND_ADDR_HIGH_arm v ∧
       get_random_address RAND_ADDR_LOW_arm RAND_ADDR_HIGH_arm v < RAND_ADDR_HIGH_arm) ∧
     (∀ a, RAND_ADDR_LOW_arm ≤ a → a < RAND_ADDR_HIGH_arm →
       ((acceptedDraws 32 RAND_ADDR_LOW_arm RAND_ADDR_HIGH_arm).filter
           (fun v => get_random_address RAND_ADDR_LOW_arm RAND_ADDR_HIGH_arm v = a)).card
         = (2 ^ 32 - addr_min 32 (RAND_ADDR_HIGH_arm - RAND_ADDR_LOW_arm))
             / (RAND_ADDR_HIGH_arm - RAND_ADDR_LOW_arm))) :=
  ⟨⟨by norm_num [RAND_ADDR_LOW_arm, RAND_ADDR_HIGH_arm],
    by norm_num [RAND_ADDR_LOW_arm, RAND_ADDR_HIGH_arm]⟩,
   C2_sampler_unbiased
     (by norm_num [RAND_ADDR_LOW_arm, RAND_ADDR_HIGH_arm])
     (by norm_num [RAND_ADDR_LOW_arm, RAND_ADDR_HIGH_arm])⟩

/-! ### The POT index map (claim C9) -/

theorem last_index_from_none_iff {soname : List Char} :
    ∀ (ls : List (List Char)) (k : Nat),
    last_index_from soname k ls = none ↔ soname ∉ ls := by
  intro ls
  induction ls with
  | nil => intro k; simp [last_index_from]
  | cons l ls ih =>
    intro k
    rw [last_index_from]
    cases h : last_index_from soname (k + 1) ls with
    | some i =>
      have hmem : soname ∈ ls := by
        by_contra hc
        rw [(ih (k + 1)).mpr hc] at h
        cases h
      constructor
      · intro hc; cases hc
      · intro hm; exact absurd (List.mem_cons_of_mem l hmem) hm
    | none =>
      by_cases he : l = soname
      · rw [if_pos he]
        constructor
        · intro hc; cases hc
        · intro hm
          have : soname ∈ l :: ls := by
            rw [← he]
            exact List.mem_cons_self l ls
          exact absurd this hm
      · rw [if_neg he]
        have hnotmem : soname ∉ ls := (ih (k + 1)).mp h
        constructor
        · intro _
          intro hmem
          rcases List.mem_cons.mp hmem with heq | hmem
          · exact he heq.symm
          · exact hnotmem hmem
        · intro _; rfl

theorem last_index_from_some {soname : List Char} :
    ∀ (ls : List (List Char)) (k i : Nat),
    last_index_from soname k ls = some i →
    ∃ j, i = k + j ∧ ls.get? j = some soname := by
  intro ls
  induction ls with
  | nil =>
    intro k i h
    rw [last_index_from] at h
    cases h
  | cons l ls ih =>
    intro k i h
    rw [last_index_from] at h
    cases hrec : last_index_from soname (k + 1) ls with
    | some i' =>
      rw [hrec] at h
      injection h with h
      subst h
      obtain ⟨j, hj, hget⟩ := ih (k + 1) i' hrec
      refine ⟨j + 1, by omega, ?_⟩
      simpa using hget
    | none =>
      rw [hrec] at h
      by_cases he : l = soname
      · rw [if_pos he] at h
        injection h with h
        subst h
        exact ⟨0, by omega, by simp [he]⟩
      · rw [if_neg he] at h
        cases h

/-- Claim C9: `get_pot_index` returns the `kPOTIndexError` sentinel when
the map file cannot be read and when no line of the file equals the
soname (the model is a total function, so no exception is possible); when
some line equals the soname it returns the zero-based line number of a
line equal to it (the last such line, since later `pot_indices_[line] =
index` assignments overwrite earlier ones). -/
theorem C9_pot_index (soname : List Char) :
    get_pot_index none soname = kPOTIndexError ∧
    (∀ content, soname ∉ split_lines content →
      get_pot_index (some content) soname = kPOTIndexError) ∧
    (∀ content, soname ∈ split_lines content →
      ∃ i, (split_lines content).get? i = some soname ∧
        get_pot_index (some content) soname = i) := by
  refine ⟨rfl, ?_, ?_⟩
  · intro content hm
    unfold get_pot_index
    dsimp only
    rw [(last_index_from_none_iff (split_lines content) 0).mpr hm]
  · intro content hm
    cases h : last_index_from soname 0 (split_lines content) with
    | none =>
      exact absurd hm ((last_index_from_none_iff _ 0).mp h)
    | some i =>
      obtain ⟨j, hj, hget⟩ := last_index_from_some _ 0 i h
      have hij : i = j := by omega
      subst hij
      refine ⟨i, hget, ?_⟩
      unfold get_pot_index
      dsimp only
      rw [h]

theorem C9_pot_index_witness :
    (get_pot_index none (['b'] : List Char) = kPOTIndexError) ∧
    ((['x'] : List Char) ∉ split_lines ['a', '\n', 'b'] ∧
      get_pot_index (some ['a', '\n', 'b']) ['x'] = kPOTIndexError) ∧
    ((['b'] : List Char) ∈ split_lines ['a', '\n', 'b'] ∧
      ∃ i, (split_lines ['a', '\n', 'b']).get? i = some ['b'] ∧
        get_pot_index (some ['a', '\n', 'b']) ['b'] = i) :=
  ⟨(C9_pot_index ['b']).1,
   ⟨by decide, (C9_pot_index ['x']).2.1 ['a', '\n', 'b'] (by decide)⟩,
   ⟨by decide, (C9_pot_index ['b']).2.2 ['a', '\n', 'b'] (by decide)⟩⟩

end RandoMap
